import Mathlib

/-!
# StationManager: a shallow embedding

The C++ class `StationManager` (src/StationManager.cpp, src/StatioManager.hpp) is a
`LinkedList<KitchenStation*>` extended with a dish queue and a vector of backup
ingredients.  The embedding keeps the three pieces of state as lists:

* `stations`            the nodes of the inherited linked list, head first;
* `dish_queue_`         the `std::queue<Dish*>`, front first;
* `backup_ingredients_` the `std::vector<Ingredient>`.

Conventions of the embedding.

* Pointers are replaced by the values they point to.  Distinct list nodes are taken to
  hold distinct `KitchenStation` objects, and the dishes of the queue are objects of
  their own; a pointer into the registry is the position of its node.
* `int` quantities are integers.  The sum that `addBackupIngredient` stores is wrapped
  to 32 bits (`wrapInt32`), as the compiled code does when the `int` addition leaves
  the range.  The difference that `replenishStationIngredientFromBackup` stores is
  taken behind the guard `quantity <= entry` and is exact for the quantities >= 0 of
  the data model.
* Console output is not modelled.
* `Ingredient`, `Dish`, `KitchenStation` and `LinkedList` are declared in headers that
  are not part of the sources at hand; what the manager needs of them is modelled from
  the specification and marked as such.
-/

namespace Kitchen

/-! ## Data model -/

/-- Modelled from the spec: the header Ingredient.hpp is missing.  An ingredient record
is a name and a quantity (`getName`, `getQuantity`, `setQuantity`, and the constructor
`Ingredient(name, quantity)` used by the manager). -/
structure Ingredient where
  name : String
  quantity : Int
deriving DecidableEq

/-- Modelled from the spec: the header Dish.hpp is missing.  A dish is a name and an
ordered sequence of required ingredients (`getName`, `getIngredients`). -/
structure Dish where
  name : String
  ingredients : List Ingredient
deriving DecidableEq

/-- Modelled from the spec: the header KitchenStation.hpp is missing.  A station has a
name, the dishes it knows how to prepare and a stock of ingredient records. -/
structure KitchenStation where
  name : String
  dishes : List Dish
  ingredients_stock : List Ingredient
deriving DecidableEq

/-- State of a `StationManager` object. -/
structure StationManager where
  stations : List KitchenStation
  dish_queue_ : List Dish
  backup_ingredients_ : List Ingredient
deriving DecidableEq

/-! ## Generic helpers -/

/-- Position of the first element satisfying `p` (`std::find_if`, or a pointer walk
along the linked list); `none` stands for `end()` / `nullptr`. -/
def findIf {α : Type} (p : α → Bool) : List α → Option Nat
  | [] => none
  | x :: xs => if p x then some 0 else (findIf p xs).map (· + 1)

/-- Apply `f` to the element at position `i` (mutation through a pointer or iterator). -/
def modifyAt {α : Type} (f : α → α) : Nat → List α → List α
  | _, [] => []
  | 0, x :: xs => f x :: xs
  | i + 1, x :: xs => x :: modifyAt f i xs

/-- Value that a 32-bit two's complement `int` holds for the mathematical result `z` of an
addition: `z` itself inside the range, wrapped around outside of it. -/
def wrapInt32 (z : Int) : Int := (z + 2147483648) % 4294967296 - 2147483648

/-- The integer is one that a 32-bit `int` can hold. -/
def fitsInt32 (z : Int) : Prop := -2147483648 ≤ z ∧ z < 2147483648

/-! ## The station collaborator (modelled from the spec) -/

/-- Modelled from the spec: merge-by-name-sum on a stock.  "Two ingredient records with
the same name in a stock are logically merged (quantities summed), never duplicated":
the quantity is added onto the first record of that name, and a record is appended when
there is none. -/
def addToStock : List Ingredient → Ingredient → List Ingredient
  | [], ingredient => [ingredient]
  | x :: xs, ingredient =>
    if x.name = ingredient.name then
      { x with quantity := x.quantity + ingredient.quantity } :: xs
    else x :: addToStock xs ingredient

/-- Quantity a stock holds for an ingredient name: that of the first record of the name,
and 0 when the name is absent. -/
def stockQuantity : List Ingredient → String → Int
  | [], _ => 0
  | x :: xs, n => if x.name = n then x.quantity else stockQuantity xs n

/-- Modelled from the spec: KitchenStation::replenishStationIngredients is missing.  The
ingredient is added into the station's stock by the merge-by-name-sum rule. -/
def KitchenStation.replenishStationIngredients (s : KitchenStation)
    (ingredient : Ingredient) : KitchenStation :=
  { s with ingredients_stock := addToStock s.ingredients_stock ingredient }

/-- Modelled from the spec: KitchenStation::assignDishToStation is missing.  The dish is
added to the station's dishes, "duplicates allowed - no dedup by dish identity". -/
def KitchenStation.assignDishToStation (s : KitchenStation) (dish : Dish) :
    Bool × KitchenStation :=
  (true, { s with dishes := s.dishes ++ [dish] })

/-- Modelled from the spec: KitchenStation::canPrepare is missing.  "Does its capability
set include the dish, independent of current stock": some dish of the station carries
the dish's name. -/
def KitchenStation.canPrepare (s : KitchenStation) (dish : Dish) : Bool :=
  s.dishes.any (fun d => decide (d.name = dish.name))

/-- Does the stock cover every required quantity of the list? -/
def stockCovers (stock : List Ingredient) (required : List Ingredient) : Bool :=
  required.all (fun r => decide (r.quantity ≤ stockQuantity stock r.name))

/-- Take the required quantities out of a stock, one requirement after the other. -/
def consumeStock (stock : List Ingredient) (required : List Ingredient) : List Ingredient :=
  required.foldl
    (fun st r => addToStock st { name := r.name, quantity := - r.quantity }) stock

/-- Modelled from the spec: KitchenStation::prepareDish is missing.  The attempt "checks
whether current stock covers every required ingredient quantity" of the station's dish
of that name; when it does the required quantities are used up and the attempt succeeds,
otherwise the station is left as it is and the attempt fails. -/
def KitchenStation.prepareDish (s : KitchenStation) (dish_name : String) :
    Bool × KitchenStation :=
  match s.dishes.find? (fun d => decide (d.name = dish_name)) with
  | none => (false, s)
  | some d =>
    if stockCovers s.ingredients_stock d.ingredients then
      (true, { s with ingredients_stock := consumeStock s.ingredients_stock d.ingredients })
    else (false, s)

/-! ## The inherited linked list (modelled from the spec) -/

namespace StationManager

/-- The member `item_count_` of the list. -/
def item_count_ (m : StationManager) : Int := m.stations.length

/-- Modelled from the spec: LinkedList::insert is missing.  Positional insert into the
ordered sequence, valid for positions 0 .. item_count_. -/
def insert (m : StationManager) (position : Int) (station : KitchenStation) :
    Bool × StationManager :=
  if 0 ≤ position ∧ position ≤ m.item_count_ then
    (true, { m with stations :=
      m.stations.take position.toNat ++ station :: m.stations.drop position.toNat })
  else (false, m)

/-- Modelled from the spec: LinkedList::remove is missing.  Positional remove from the
ordered sequence, valid for positions 0 .. item_count_ - 1. -/
def remove (m : StationManager) (position : Int) : Bool × StationManager :=
  if 0 ≤ position ∧ position < m.item_count_ then
    (true, { m with stations := m.stations.eraseIdx position.toNat })
  else (false, m)

/-! ## Registry operations (src/StationManager.cpp) -/

/-- Source `StationManager::addStation`. -/
def addStation (m : StationManager) (station : KitchenStation) : Bool × StationManager :=
  m.insert m.item_count_ station

/-- Source `StationManager::findStation`: the first node whose station has the name, as a
position in the list; `none` is `nullptr`. -/
def findStation (m : StationManager) (station_name : String) : Option Nat :=
  findIf (fun s => decide (s.name = station_name)) m.stations

/-- Source `StationManager::getStationIndex`: index of the first station of that name, -1 when
there is none. -/
def getStationIndex (m : StationManager) (name : String) : Int :=
  match findIf (fun s => decide (s.name = name)) m.stations with
  | some i => (i : Int)
  | none => -1

/-- Source `StationManager::removeStation`: remove the first station of that name. -/
def removeStation (m : StationManager) (station_name : String) : Bool × StationManager :=
  match findIf (fun s => decide (s.name = station_name)) m.stations with
  | some i => m.remove i
  | none => (false, m)

/-- Source `StationManager::moveStationToFront`.  Once `findStation` has found the name
the list has a head and the walk meets a node of that name, so the `none` branches
below are never taken. -/
def moveStationToFront (m : StationManager) (station_name : String) :
    Bool × StationManager :=
  match m.findStation station_name with
  | none => (false, m)
  | some _ =>
    match m.stations.head? with
    | none => (false, m)
    | some head =>
      if head.name = station_name then (true, m)
      else
        -- the walk stops at the first node of that name
        match findIf (fun s => decide (s.name = station_name)) m.stations with
        | none => (false, m)
        | some k =>
          match m.stations.get? k with
          | none => (false, m)
          | some station =>
            let pos := m.getStationIndex station.name
            let m1 := (m.remove pos).2
            let m2 := (m1.insert 0 station).2
            (true, m2)

/-- Source `StationManager::mergeStations`.  The two range-for loops run over the vectors
that `getDishes()` and `getIngredientsStock()` return for the second station when the
loop starts, and every iteration writes to the first station through its pointer.  Once
both stations are found their nodes exist, so the `none` branches of the two lookups
are never taken. -/
def mergeStations (m : StationManager) (station_name1 station_name2 : String) :
    Bool × StationManager :=
  match m.findStation station_name1, m.findStation station_name2 with
  | some p1, some p2 =>
    match m.stations.get? p2 with
    | none => (false, m)
    | some station2 =>
      let stations1 := station2.dishes.foldl
        (fun l dish => modifyAt (fun s => (s.assignDishToStation dish).2) p1 l) m.stations
      match stations1.get? p2 with
      | none => (false, m)
      | some station2' =>
        let stations2 := station2'.ingredients_stock.foldl
          (fun l ingredient =>
            modifyAt (fun s => s.replenishStationIngredients ingredient) p1 l) stations1
        let m2 : StationManager := { m with stations := stations2 }
        (true, (m2.removeStation station_name2).2)
  | _, _ => (false, m)

/-! ## Backup pool (src/StationManager.cpp) -/

/-- Source `StationManager::replenishStationIngredientFromBackup`. -/
def replenishStationIngredientFromBackup (m : StationManager)
    (station_name ingredient_name : String) (quantity : Int) : Bool × StationManager :=
  match findIf (fun ingr => decide (ingr.name = ingredient_name)) m.backup_ingredients_ with
  | none => (false, m)
  | some it =>
    match m.backup_ingredients_.get? it with
    | none => (false, m)
    | some entry =>
      if quantity ≤ entry.quantity then
        match m.findStation station_name with
        | none => (false, m)
        | some p =>
          let stations1 := modifyAt
            (fun s => s.replenishStationIngredients
              { name := ingredient_name, quantity := quantity }) p m.stations
          let backup1 := modifyAt
            (fun e => { e with quantity := e.quantity - quantity }) it m.backup_ingredients_
          let backup2 :=
            if entry.quantity - quantity = 0 then backup1.eraseIdx it else backup1
          (true, { m with stations := stations1, backup_ingredients_ := backup2 })
      else (false, m)

/-- Source `StationManager::addBackupIngredients`: the pool is replaced by the given list. -/
def addBackupIngredients (m : StationManager) (ingredients : List Ingredient) :
    Bool × StationManager :=
  (true, { m with backup_ingredients_ := ingredients })

/-- Source `StationManager::addBackupIngredient`.  The quantity written back is the `int`
sum `it->getQuantity() + ingredient.getQuantity()`. -/
def addBackupIngredient (m : StationManager) (ingredient : Ingredient) :
    Bool × StationManager :=
  match findIf (fun ingr => decide (ingr.name = ingredient.name)) m.backup_ingredients_ with
  | some it =>
    let backup1 := modifyAt
      (fun e => { e with quantity := wrapInt32 (e.quantity + ingredient.quantity) }) it
      m.backup_ingredients_
    (true, { m with backup_ingredients_ := backup1 })
  | none => (true, { m with backup_ingredients_ := m.backup_ingredients_ ++ [ingredient] })

/-- Source `StationManager::clearBackupIngredients`. -/
def clearBackupIngredients (m : StationManager) : StationManager :=
  { m with backup_ingredients_ := [] }

/-- Source `StationManager::replenishIngredient` (private helper): a plain forward. -/
def replenishIngredient (m : StationManager)
    (station_name ingredient_name : String) (quantity : Int) : Bool × StationManager :=
  m.replenishStationIngredientFromBackup station_name ingredient_name quantity

/-! ## Dish preparation (src/StationManager.cpp) -/

/-- The replenishment loop of `prepareNextDish`: `replenishIngredient` is called for every
ingredient of the dish, and the results are accumulated with `&=`, which still evaluates
each call. -/
def replenishAll (m : StationManager) (station_name : String)
    (ingredients : List Ingredient) : Bool × StationManager :=
  ingredients.foldl
    (fun (acc : Bool × StationManager) ingredient =>
      let r := acc.2.replenishIngredient station_name ingredient.name ingredient.quantity
      (acc.1 && r.1, r.2))
    (true, m)

/-- Write a station back at position `i` (the station object behind the node pointer). -/
def setStation (m : StationManager) (i : Nat) (s : KitchenStation) : StationManager :=
  { m with stations := modifyAt (fun _ => s) i m.stations }

/-- The call `dish_queue_.pop()`. -/
def popDish (m : StationManager) : StationManager :=
  { m with dish_queue_ := m.dish_queue_.tail }

/-- Body of the `while` loop of `prepareNextDish` for the node at position `i`, given its
station: the result is the flag `dishPrepared` (the loop breaks when it is set) and the
state. -/
def attemptStation (dish : Dish) (i : Nat) (station : KitchenStation)
    (m : StationManager) : Bool × StationManager :=
  if station.canPrepare dish then
    let r := station.prepareDish dish.name
    let m0 := m.setStation i r.2
    if r.1 then (true, m0.popDish)
    else
      let rep := m0.replenishAll r.2.name dish.ingredients
      if rep.1 then
        match rep.2.stations.get? i with
        | none => (false, rep.2)
        | some station1 =>
          let r1 := station1.prepareDish dish.name
          let m1 := rep.2.setStation i r1.2
          if r1.1 then (true, m1.popDish) else (false, m1)
      else (false, rep.2)
  else (false, m)

/-- The `while (stationNode != nullptr)` loop of `prepareNextDish`, the node pointer being
the position `i`.  The first argument bounds the number of iterations; the registry
length is always enough (`scanStations_fuel`). -/
def scanStations (dish : Dish) : Nat → Nat → StationManager → Bool × StationManager
  | 0, _, m => (false, m)
  | fuel + 1, i, m =>
    match m.stations.get? i with
    | none => (false, m)
    | some station =>
      let r := attemptStation dish i station m
      if r.1 then r else scanStations dish fuel (i + 1) r.2

/-- Source `StationManager::prepareNextDish`. -/
def prepareNextDish (m : StationManager) : Bool × StationManager :=
  match m.dish_queue_ with
  | [] => (false, m)
  | dish :: _ => scanStations dish m.stations.length 0 m

/-- One invocation of `prepareNextDish` as seen from `processAllDishes`: the dish at the
front of the queue when the call was made (`none` for an empty queue) and the result. -/
structure Attempt where
  front : Option Dish
  prepared : Bool
deriving DecidableEq

/-- The `for` loop of `processAllDishes`, run for `n` iterations.  Besides the state it
returns the log of the `prepareNextDish` invocations, which is not part of the C++
state.  `none` stands for the undefined behaviour of `front()` on an empty queue. -/
def processLoop : Nat → StationManager → Option (List Attempt × StationManager)
  | 0, m => some ([], m)
  | n + 1, m =>
    let r := m.prepareNextDish
    let entry : Attempt := { front := m.dish_queue_.head?, prepared := r.1 }
    if r.1 then
      (processLoop n r.2).map (fun out => (entry :: out.1, out.2))
    else
      match r.2.dish_queue_ with
      | [] => none
      | dish :: rest =>
        (processLoop n { r.2 with dish_queue_ := rest ++ [dish] }).map
          (fun out => (entry :: out.1, out.2))

/-- Source `StationManager::processAllDishes`, with the log of its invocations. -/
def processAllDishesLog (m : StationManager) : Option (List Attempt × StationManager) :=
  processLoop m.dish_queue_.length m

/-- Source `StationManager::processAllDishes`. -/
def processAllDishes (m : StationManager) : Option StationManager :=
  (processAllDishesLog m).map (fun out => out.2)

end StationManager

/-! ## Specification vocabulary -/

/-- The backup pool after a successful transfer of `q` units out of the entry `e` that sits
between `pre` and `post`. -/
def StationManager.backupAfter (pre : List Ingredient) (e : Ingredient) (post : List Ingredient)
    (q : Int) : List Ingredient :=
  if e.quantity - q = 0 then pre ++ post
  else pre ++ { e with quantity := e.quantity - q } :: post

/-- The entry `e` is the first one of the list `l` that carries the name `n`, with `pre`
before it and `post` after it. -/
def FirstNamed (l pre : List Ingredient) (e : Ingredient) (post : List Ingredient)
    (n : String) : Prop :=
  l = pre ++ e :: post ∧ (∀ x ∈ pre, x.name ≠ n) ∧ e.name = n

/-- The station `s` is the first one of the registry `l` that carries the name `n`, with
`pre` before it and `post` after it. -/
def FirstStation (l pre : List KitchenStation) (s : KitchenStation)
    (post : List KitchenStation) (n : String) : Prop :=
  l = pre ++ s :: post ∧ (∀ x ∈ pre, x.name ≠ n) ∧ s.name = n

/-- In the state `m` the station at position `i` prepares the dish: it knows the dish, and
either its direct attempt succeeds, or the direct attempt fails, every replenishment of
the dish's ingredients for that station succeeds, and its retry succeeds. -/
def PreparedBy (dish : Dish) (i : Nat) (m : StationManager) : Prop :=
  ∃ st, m.stations.get? i = some st ∧ st.canPrepare dish = true ∧
    ((st.prepareDish dish.name).1 = true ∨
     ((st.prepareDish dish.name).1 = false ∧
      (m.replenishAll st.name dish.ingredients).1 = true ∧
      ∃ st1, (m.replenishAll st.name dish.ingredients).2.stations.get? i = some st1 ∧
        (st1.prepareDish dish.name).1 = true))

/-- State reached from `m` by the loop bodies of the scan for the `n` positions
`i, i + 1, ..`: the state in which the scan arrives at position `i + n` when none of
these stations has prepared the dish. -/
def stateAfterAttempts (dish : Dish) : Nat → Nat → StationManager → StationManager
  | 0, _, m => m
  | n + 1, i, m =>
    match m.stations.get? i with
    | none => m
    | some st => stateAfterAttempts dish n (i + 1) (StationManager.attemptStation dish i st m).2

/-- Dishes of a queue whose attempt, as recorded at the same position of the log, failed;
the order of the queue is kept. -/
def failedDishes : List Dish → List StationManager.Attempt → List Dish
  | d :: ds, a :: as => if a.prepared then failedDishes ds as else d :: failedDishes ds as
  | _, _ => []

/-- Number of successful preparations recorded in a log. -/
def successes (log : List StationManager.Attempt) : Nat :=
  (log.filter (fun a => a.prepared)).length

/-- Total quantity a stock holds for an ingredient name: the sum over all its records of
that name. -/
def stockTotal : List Ingredient → String → Int
  | [], _ => 0
  | x :: xs, n => (if x.name = n then x.quantity else 0) + stockTotal xs n

/-- A station after a list of dishes has been assigned to it, one after the other. -/
def assignAll (s : KitchenStation) (dishes : List Dish) : KitchenStation :=
  dishes.foldl (fun st dish => (st.assignDishToStation dish).2) s

/-- A station after the records of a stock have been added into its own stock, one after
the other. -/
def replenishFrom (s : KitchenStation) (stock : List Ingredient) : KitchenStation :=
  stock.foldl (fun st ingredient => st.replenishStationIngredients ingredient) s

/-- Names of the entries of a stock, in order. -/
def ingredientNames (l : List Ingredient) : List String := l.map (fun x => x.name)

/-- Names of the stations of a registry, in order. -/
def stationNames (l : List KitchenStation) : List String := l.map (fun s => s.name)

/-- The manager right after construction: no station, no dish, no backup ingredient. -/
def emptyManager : StationManager :=
  { stations := [], dish_queue_ := [], backup_ingredients_ := [] }

/-- One operation of a client, seen from the backup pool.  `okList` says which lists may
be handed to `addBackupIngredients` and `okOne` which ingredients to
`addBackupIngredient`; the arguments of the other operations are free.  The last rule
stands for the operations that do not write the pool (registry and queue
operations). -/
inductive PoolStep (okList : List Ingredient → Prop) (okOne : Ingredient → Prop) :
    StationManager → StationManager → Prop
  | addBackupIngredients (m : StationManager) (l : List Ingredient) :
      okList l → PoolStep okList okOne m (m.addBackupIngredients l).2
  | addBackupIngredient (m : StationManager) (x : Ingredient) :
      okOne x → PoolStep okList okOne m (m.addBackupIngredient x).2
  | clearBackupIngredients (m : StationManager) :
      PoolStep okList okOne m m.clearBackupIngredients
  | replenishStationIngredientFromBackup (m : StationManager) (sn inn : String) (q : Int) :
      PoolStep okList okOne m (m.replenishStationIngredientFromBackup sn inn q).2
  | prepareNextDish (m : StationManager) :
      PoolStep okList okOne m m.prepareNextDish.2
  | processAllDishes (m m' : StationManager) :
      m.processAllDishes = some m' → PoolStep okList okOne m m'
  | other (m m' : StationManager) :
      m'.backup_ingredients_ = m.backup_ingredients_ → PoolStep okList okOne m m'

/-- States reachable from the empty manager by the operations of `PoolStep`. -/
inductive PoolReachable (okList : List Ingredient → Prop) (okOne : Ingredient → Prop) :
    StationManager → Prop
  | start : PoolReachable okList okOne emptyManager
  | step (m m' : StationManager) :
      PoolReachable okList okOne m → PoolStep okList okOne m m' →
      PoolReachable okList okOne m'

/-- One registry operation of a client.  `okNew` says which stations may be handed to
`addStation` in a given state; the arguments of the other operations are free. -/
inductive RegistryStep (okNew : StationManager → KitchenStation → Prop) :
    StationManager → StationManager → Prop
  | addStation (m : StationManager) (s : KitchenStation) :
      okNew m s → RegistryStep okNew m (m.addStation s).2
  | removeStation (m : StationManager) (n : String) :
      RegistryStep okNew m (m.removeStation n).2
  | moveStationToFront (m : StationManager) (n : String) :
      RegistryStep okNew m (m.moveStationToFront n).2
  | mergeStations (m : StationManager) (a b : String) :
      RegistryStep okNew m (m.mergeStations a b).2

/-- States reachable from a manager with an empty registry by the operations of
`RegistryStep`. -/
inductive RegistryReachable (okNew : StationManager → KitchenStation → Prop) :
    StationManager → Prop
  | start (m : StationManager) : m.stations = [] → RegistryReachable okNew m
  | step (m m' : StationManager) :
      RegistryReachable okNew m → RegistryStep okNew m m' → RegistryReachable okNew m'

/-- Number of entries of a stock that carry the name. -/
def entriesNamed (l : List Ingredient) (n : String) : Nat :=
  (l.filter (fun x => decide (x.name = n))).length

/-- One iteration of the batch loop as the specification words it: invoke the
single-dish preparation; if it reports failure, rotate the dish at the head from the
front to the back of the queue. -/
def iterationStep (m : StationManager) : StationManager :=
  if m.prepareNextDish.1 then m.prepareNextDish.2
  else
    { m.prepareNextDish.2 with
      dish_queue_ :=
        m.prepareNextDish.2.dish_queue_.tail ++ m.prepareNextDish.2.dish_queue_.head?.toList }

/-- State in which the iteration number `i` (counted from 0) of the batch loop starts:
the state on which that iteration invokes `prepareNextDish`. -/
def stateBeforeIteration : Nat → StationManager → StationManager
  | 0, m => m
  | i + 1, m => stateBeforeIteration i (iterationStep m)

/-- Dishes of the initial queue whose preparation attempt fails: the dish at position `i`
is kept when `prepareNextDish`, invoked on the state in which iteration `i` starts,
returns false. -/
def unpreparedDishes (m : StationManager) : List Dish :=
  (List.range m.dish_queue_.length).filterMap
    (fun i => if (stateBeforeIteration i m).prepareNextDish.1 then none
      else m.dish_queue_.get? i)

/-- Number of dishes of the initial queue whose preparation attempt succeeds. -/
def preparedCount (m : StationManager) : Nat :=
  ((List.range m.dish_queue_.length).filter
    (fun i => (stateBeforeIteration i m).prepareNextDish.1)).length

/-- The quantity is at least `lo` and is one that a 32-bit `int` can hold. -/
def quantityOk (lo : Int) (q : Int) : Prop := lo ≤ q ∧ q < 2147483648

/-- Adding the ingredient overflows no `int`: when the pool has an entry of its name, the
sum with the first such entry is below 2^31. -/
def addFits (m : StationManager) (x : Ingredient) : Prop :=
  ∀ pre e post, FirstNamed m.backup_ingredients_ pre e post x.name →
    e.quantity + x.quantity < 2147483648

/-- Every dish of the queue requires quantities that are at least 0. -/
def queueQuantitiesOk (m : StationManager) : Prop :=
  ∀ d ∈ m.dish_queue_, ∀ x ∈ d.ingredients, 0 ≤ x.quantity

/-- One operation of a client, seen from the quantities of the backup pool.  The
ingredients that are added carry an `int` quantity of at least `lo` and their addition
overflows no `int`; the quantity asked of a replenishment and the quantities that the
queued dishes require are at least 0.  The last rule stands for the operations that do
not write the pool (registry and queue operations). -/
inductive QuantityStep (lo : Int) : StationManager → StationManager → Prop
  | addBackupIngredients (m : StationManager) (l : List Ingredient) :
      (∀ x ∈ l, quantityOk lo x.quantity) → QuantityStep lo m (m.addBackupIngredients l).2
  | addBackupIngredient (m : StationManager) (x : Ingredient) :
      quantityOk lo x.quantity → addFits m x →
      QuantityStep lo m (m.addBackupIngredient x).2
  | clearBackupIngredients (m : StationManager) :
      QuantityStep lo m m.clearBackupIngredients
  | replenishStationIngredientFromBackup (m : StationManager) (sn inn : String) (q : Int) :
      0 ≤ q → QuantityStep lo m (m.replenishStationIngredientFromBackup sn inn q).2
  | prepareNextDish (m : StationManager) :
      queueQuantitiesOk m → QuantityStep lo m m.prepareNextDish.2
  | processAllDishes (m m' : StationManager) :
      queueQuantitiesOk m → m.processAllDishes = some m' → QuantityStep lo m m'
  | other (m m' : StationManager) :
      m'.backup_ingredients_ = m.backup_ingredients_ → QuantityStep lo m m'

/-- States reachable from the empty manager by the operations of `QuantityStep`. -/
inductive QuantityReachable (lo : Int) : StationManager → Prop
  | start : QuantityReachable lo emptyManager
  | step (m m' : StationManager) :
      QuantityReachable lo m → QuantityStep lo m m' → QuantityReachable lo m'

/-! ## Scenario data -/

/-- Flour in a given quantity, as a requirement or a stock record. -/
def flour (q : Int) : Ingredient := { name := "Flour", quantity := q }

/-- DishA of the scenarios: needs 2 units of Flour. -/
def dishA : Dish := { name := "DishA", ingredients := [flour 2] }

/-- DishB of the scenarios. -/
def dishB : Dish := { name := "DishB", ingredients := [] }

/-- Station "Grill" knowing DishA, with a given stock. -/
def grill (stock : List Ingredient) : KitchenStation :=
  { name := "Grill", dishes := [dishA], ingredients_stock := stock }

/-- Station with a name only, for registry examples. -/
def bare (n : String) : KitchenStation := { name := n, dishes := [], ingredients_stock := [] }

/-- Manager holding only a registry. -/
def registry (l : List KitchenStation) : StationManager :=
  { stations := l, dish_queue_ := [], backup_ingredients_ := [] }

/-- Manager of the scenarios: queue [DishA, DishB], the single station Grill with the
given stock and a backup pool holding the given amount of Flour. -/
def scenario (stock : List Ingredient) (backupFlour : Int) : StationManager :=
  { stations := [grill stock], dish_queue_ := [dishA, dishB],
    backup_ingredients_ := [flour backupFlour] }

/-- Sugar in a given quantity, as a requirement or a stock record. -/
def sugar (q : Int) : Ingredient := { name := "Sugar", quantity := q }

/-- A dish needing 2 Flour and then 1 Sugar. -/
def pastry : Dish := { name := "Pastry", ingredients := [flour 2, sugar 1] }

/-- A dish needing 1 Sugar and then 2 Flour. -/
def crumble : Dish := { name := "Crumble", ingredients := [sugar 1, flour 2] }

/-- Station "Oven" knowing one dish, with a given stock. -/
def oven (dish : Dish) (stock : List Ingredient) : KitchenStation :=
  { name := "Oven", dishes := [dish], ingredients_stock := stock }

/-- Manager with the single station Oven, without stock, that knows the dish, the dish
alone in the queue, and a backup pool holding 5 Flour and no Sugar. -/
def bakery (dish : Dish) : StationManager :=
  { stations := [oven dish []], dish_queue_ := [dish], backup_ingredients_ := [flour 5] }

/-- A station of the given name knowing DishA and holding 1 Flour. -/
def stocked (n : String) : KitchenStation :=
  { name := n, dishes := [dishA], ingredients_stock := [flour 1] }

/-- The largest value of a 32-bit `int`. -/
def intMax : Int := 2147483647

/-! ## Lemmas on the helpers -/

theorem findIf_eq_none {α : Type} (p : α → Bool) (l : List α) :
    findIf p l = none ↔ ∀ x ∈ l, p x = false := by
  induction l with
  | nil => simp [findIf]
  | cons a l ih =>
    by_cases h : p a = true
    · simp [findIf, h]
    · simp [findIf, h, ih]

theorem findIf_eq_some {α : Type} (p : α → Bool) (l : List α) (i : Nat) :
    findIf p l = some i ↔
      ∃ pre x post, l = pre ++ x :: post ∧ pre.length = i ∧ p x = true ∧
        ∀ y ∈ pre, p y = false := by
  induction l generalizing i with
  | nil => simp [findIf]
  | cons a l ih =>
    by_cases h : p a = true
    · constructor
      · intro hf
        simp [findIf, h] at hf
        exact ⟨[], a, l, by simp, by simpa using hf, h, by simp⟩
      · rintro ⟨pre, x, post, hl, hlen, hx, hpre⟩
        cases pre with
        | nil => simp at hlen; simp [findIf, h, hlen]
        | cons b pre =>
          simp at hl
          have := hpre b (by simp)
          rw [← hl.1, h] at this
          exact absurd this (by simp)
    · constructor
      · intro hf
        simp only [findIf, h, Bool.false_eq_true, if_false, Option.map_eq_some'] at hf
        obtain ⟨j, hj, rfl⟩ := hf
        obtain ⟨pre, x, post, hl, hlen, hx, hpre⟩ := (ih j).1 hj
        refine ⟨a :: pre, x, post, by simp [hl], by simp [hlen], hx, ?_⟩
        intro y hy
        rcases List.mem_cons.1 hy with rfl | hy
        · simpa using h
        · exact hpre y hy
      · rintro ⟨pre, x, post, hl, hlen, hx, hpre⟩
        cases pre with
        | nil =>
          simp at hl
          rw [hl.1] at h
          exact absurd hx h
        | cons b pre =>
          simp at hl
          simp only [findIf, h, Bool.false_eq_true, if_false, Option.map_eq_some']
          refine ⟨pre.length, (ih pre.length).2 ⟨pre, x, post, hl.2, rfl, hx, ?_⟩, by simpa using hlen⟩
          intro y hy
          exact hpre y (List.mem_cons_of_mem _ hy)

theorem modifyAt_append_cons {α : Type} (f : α → α) (pre : List α) (x : α) (post : List α) :
    modifyAt f pre.length (pre ++ x :: post) = pre ++ f x :: post := by
  induction pre with
  | nil => simp [modifyAt]
  | cons a pre ih => simp [modifyAt, ih]

theorem modifyAt_length {α : Type} (f : α → α) (i : Nat) (l : List α) :
    (modifyAt f i l).length = l.length := by
  induction l generalizing i with
  | nil => simp [modifyAt]
  | cons a l ih => cases i <;> simp [modifyAt, ih]

theorem eraseIdx_append_cons {α : Type} (pre : List α) (x : α) (post : List α) :
    (pre ++ x :: post).eraseIdx pre.length = pre ++ post := by
  induction pre with
  | nil => simp
  | cons a pre ih => simp [ih]

theorem get?_append_cons {α : Type} (pre : List α) (x : α) (post : List α) :
    (pre ++ x :: post).get? pre.length = some x := by
  induction pre with
  | nil => simp
  | cons a pre ih => simpa using ih

theorem stockQuantity_addToStock_same (stock : List Ingredient) (n : String) (q : Int) :
    stockQuantity (addToStock stock { name := n, quantity := q }) n
      = stockQuantity stock n + q := by
  induction stock with
  | nil => simp [addToStock, stockQuantity]
  | cons a stock ih =>
    by_cases h : a.name = n
    · simp [addToStock, stockQuantity, h]
    · simp [addToStock, stockQuantity, h, ih]

theorem stockQuantity_addToStock_other (stock : List Ingredient) (n n' : String) (q : Int)
    (hne : n' ≠ n) :
    stockQuantity (addToStock stock { name := n, quantity := q }) n'
      = stockQuantity stock n' := by
  induction stock with
  | nil => simp [addToStock, stockQuantity, Ne.symm hne]
  | cons a stock ih =>
    by_cases h : a.name = n
    · simp [addToStock, stockQuantity, h, Ne.symm hne]
    · by_cases h2 : a.name = n'
      · subst h2
        simp [addToStock, stockQuantity, h]
      · simp [addToStock, stockQuantity, h, h2, ih]

namespace StationManager

/-- Outcome of `replenishStationIngredientFromBackup` when the first backup entry of the
name is large enough and the station exists. -/
theorem replenish_success (m : StationManager) (sn inn : String) (q : Int)
    (pre post : List Ingredient) (e : Ingredient)
    (spre spost : List KitchenStation) (s : KitchenStation)
    (hb : m.backup_ingredients_ = pre ++ e :: post) (hpre : ∀ x ∈ pre, x.name ≠ inn)
    (he : e.name = inn) (hq : q ≤ e.quantity)
    (hs : m.stations = spre ++ s :: spost) (hspre : ∀ x ∈ spre, x.name ≠ sn)
    (hsn : s.name = sn) :
    m.replenishStationIngredientFromBackup sn inn q =
      (true, { m with
        stations := spre ++
          s.replenishStationIngredients { name := inn, quantity := q } :: spost,
        backup_ingredients_ := backupAfter pre e post q }) := by
  have h1 : findIf (fun ingr => decide (ingr.name = inn)) m.backup_ingredients_
      = some pre.length :=
    (findIf_eq_some _ _ _).2 ⟨pre, e, post, hb, rfl, by simpa using he,
      fun y hy => by simpa using hpre y hy⟩
  have h2 : m.findStation sn = some spre.length :=
    (findIf_eq_some _ _ _).2 ⟨spre, s, spost, hs, rfl, by simpa using hsn,
      fun y hy => by simpa using hspre y hy⟩
  have h3 : m.backup_ingredients_.get? pre.length = some e := by
    rw [hb]; exact get?_append_cons _ _ _
  unfold replenishStationIngredientFromBackup
  simp only [h1, h2, h3, hq, if_true]
  simp only [hb, hs, modifyAt_append_cons, backupAfter]
  by_cases hz : e.quantity - q = 0
  · simp only [hz, if_true]
    rw [eraseIdx_append_cons]
  · simp only [hz, if_false]

/-- The call fails, and returns the state as it is, in each of the three failure cases. -/
theorem replenish_failure (m : StationManager) (sn inn : String) (q : Int)
    (h : (∀ x ∈ m.backup_ingredients_, x.name ≠ inn) ∨
      (∃ pre e post, m.backup_ingredients_ = pre ++ e :: post ∧
        (∀ x ∈ pre, x.name ≠ inn) ∧ e.name = inn ∧ e.quantity < q) ∨
      (∀ s ∈ m.stations, s.name ≠ sn)) :
    m.replenishStationIngredientFromBackup sn inn q = (false, m) := by
  unfold replenishStationIngredientFromBackup
  rcases h with h | ⟨pre, e, post, hb, hpre, he, hq⟩ | h
  · have : findIf (fun ingr => decide (ingr.name = inn)) m.backup_ingredients_ = none :=
      (findIf_eq_none _ _).2 (fun x hx => by simpa using h x hx)
    simp only [this]
  · have h1 : findIf (fun ingr => decide (ingr.name = inn)) m.backup_ingredients_
        = some pre.length :=
      (findIf_eq_some _ _ _).2 ⟨pre, e, post, hb, rfl, by simpa using he,
        fun y hy => by simpa using hpre y hy⟩
    have h3 : m.backup_ingredients_.get? pre.length = some e := by
      rw [hb]; exact get?_append_cons _ _ _
    simp only [h1, h3, not_le.2 hq, if_false]
  · have : m.findStation sn = none :=
      (findIf_eq_none _ _).2 (fun x hx => by simpa using h x hx)
    simp only [this]
    split
    · rfl
    · split
      · rfl
      · split <;> rfl

/-- Every list either has no element with the property or splits at the first one. -/
theorem first_split {α : Type} (p : α → Prop) [DecidablePred p] (l : List α) :
    (∀ x ∈ l, ¬ p x) ∨
      ∃ pre x post, l = pre ++ x :: post ∧ (∀ y ∈ pre, ¬ p y) ∧ p x := by
  induction l with
  | nil => left; simp
  | cons a l ih =>
    by_cases h : p a
    · right; exact ⟨[], a, l, by simp, by simp, h⟩
    · rcases ih with ih | ⟨pre, x, post, hl, hpre, hx⟩
      · left
        intro y hy
        rcases List.mem_cons.1 hy with rfl | hy
        · exact h
        · exact ih y hy
      · right
        refine ⟨a :: pre, x, post, by simp [hl], ?_, hx⟩
        intro y hy
        rcases List.mem_cons.1 hy with rfl | hy
        · exact h
        · exact hpre y hy

end StationManager

namespace StationManager

/-- Case analysis of `replenishStationIngredientFromBackup`: it either fails and returns
the state it was given, or the first backup entry of the name is large enough, the first
station of the name exists, and the transfer is made. -/
theorem replenish_cases (m : StationManager) (sn inn : String) (q : Int) :
    (m.replenishStationIngredientFromBackup sn inn q = (false, m) ∧
      ((∀ x ∈ m.backup_ingredients_, x.name ≠ inn) ∨
       (∃ pre e post, FirstNamed m.backup_ingredients_ pre e post inn ∧ e.quantity < q) ∨
       (∀ s ∈ m.stations, s.name ≠ sn))) ∨
    (∃ pre e post spre s spost,
      FirstNamed m.backup_ingredients_ pre e post inn ∧ q ≤ e.quantity ∧
      FirstStation m.stations spre s spost sn ∧
      m.replenishStationIngredientFromBackup sn inn q =
        (true, { m with
          stations := spre ++
            s.replenishStationIngredients { name := inn, quantity := q } :: spost,
          backup_ingredients_ := backupAfter pre e post q })) := by
  rcases first_split (fun x : Ingredient => x.name = inn) m.backup_ingredients_ with
    hb | ⟨pre, e, post, hb, hpre, he⟩
  · exact Or.inl ⟨replenish_failure m sn inn q (Or.inl hb), Or.inl hb⟩
  · by_cases hq : q ≤ e.quantity
    · rcases first_split (fun x : KitchenStation => x.name = sn) m.stations with
        hs | ⟨spre, s, spost, hs, hspre, hsn⟩
      · exact Or.inl ⟨replenish_failure m sn inn q (Or.inr (Or.inr hs)), Or.inr (Or.inr hs)⟩
      · exact Or.inr ⟨pre, e, post, spre, s, spost, ⟨hb, hpre, he⟩, hq, ⟨hs, hspre, hsn⟩,
          replenish_success m sn inn q pre post e spre spost s hb hpre he hq hs hspre hsn⟩
    · have hlt : e.quantity < q := not_le.1 hq
      exact Or.inl ⟨replenish_failure m sn inn q
        (Or.inr (Or.inl ⟨pre, e, post, hb, hpre, he, hlt⟩)),
        Or.inr (Or.inl ⟨pre, e, post, ⟨hb, hpre, he⟩, hlt⟩)⟩

end StationManager

/-- A list splits in one way only at the first element with a property. -/
theorem first_split_unique {α : Type} (p : α → Prop) (pre pre' post post' : List α)
    (x x' : α) (h : pre ++ x :: post = pre' ++ x' :: post')
    (hpre : ∀ y ∈ pre, ¬ p y) (hx : p x) (hpre' : ∀ y ∈ pre', ¬ p y) (hx' : p x') :
    pre = pre' ∧ x = x' ∧ post = post' := by
  induction pre generalizing pre' with
  | nil =>
    cases pre' with
    | nil => simpa using h
    | cons b pre' =>
      simp at h
      exact absurd (h.1 ▸ hx) (hpre' b (by simp))
  | cons a pre ih =>
    cases pre' with
    | nil =>
      simp at h
      exact absurd (h.1 ▸ hx') (hpre a (by simp))
    | cons b pre' =>
      simp at h
      obtain ⟨hp, hxx, hpost⟩ := ih pre' h.2
        (fun y hy => hpre y (List.mem_cons_of_mem _ hy))
        (fun y hy => hpre' y (List.mem_cons_of_mem _ hy))
      exact ⟨by rw [h.1, hp], hxx, hpost⟩

/-! ## Replenishment from the backup pool -/

/-- C1: replenishStationIngredientFromBackup is atomic on failure.  For every manager
state and every station name, ingredient name and quantity, when the call returns false
the state it returns is the state it was given: the backup pool (entries, order and
quantities), every station with its stock, the registry and the dish queue. -/
theorem replenish_atomic_on_failure (m : StationManager) (sn inn : String) (q : Int)
    (h : (m.replenishStationIngredientFromBackup sn inn q).1 = false) :
    (m.replenishStationIngredientFromBackup sn inn q).2 = m ∧
    (m.replenishStationIngredientFromBackup sn inn q).2.backup_ingredients_
      = m.backup_ingredients_ ∧
    (m.replenishStationIngredientFromBackup sn inn q).2.stations = m.stations ∧
    (m.replenishStationIngredientFromBackup sn inn q).2.dish_queue_ = m.dish_queue_ := by
  rcases StationManager.replenish_cases m sn inn q with ⟨hf, _⟩ |
    ⟨pre, e, post, spre, s, spost, _, _, _, hr⟩
  · rw [hf]; exact ⟨rfl, rfl, rfl, rfl⟩
  · rw [hr] at h; exact absurd h (by simp)

/-- Witness for C1: Grill asks for 2 Flour while the pool holds 1. -/
theorem replenish_atomic_on_failure_witness :
    ((scenario [] 1).replenishStationIngredientFromBackup "Grill" "Flour" 2).1 = false ∧
    ((scenario [] 1).replenishStationIngredientFromBackup "Grill" "Flour" 2).2
      = scenario [] 1 :=
  ⟨by decide,
   (replenish_atomic_on_failure (scenario [] 1) "Grill" "Flour" 2 (by decide)).1⟩

/-- C2 as stated fails: a pool may hold two entries of one name, and only the first one
found is looked at.  With the pool [Flour 1, Flour 5] and the station Grill in the
registry, an entry named Flour with quantity at least 2 exists and the station exists,
yet the call for 2 Flour returns false. -/
theorem replenish_iff_any_entry_counterexample :
    ((⟨[grill []], [], [flour 1, flour 5]⟩ : StationManager).replenishStationIngredientFromBackup
        "Grill" "Flour" 2).1 = false ∧
    (∃ e ∈ (⟨[grill []], [], [flour 1, flour 5]⟩ : StationManager).backup_ingredients_,
        e.name = "Flour" ∧ 2 ≤ e.quantity) ∧
    (∃ s ∈ (⟨[grill []], [], [flour 1, flour 5]⟩ : StationManager).stations,
        s.name = "Grill") := by
  refine ⟨by decide, ⟨flour 5, by decide, by decide, by decide⟩, ⟨grill [], by decide, by decide⟩⟩

/-- C2, amended: for every manager state, station name, ingredient name and quantity,
replenishStationIngredientFromBackup returns true if and only if (a) the first entry of
the backup pool named ingredientName exists and its quantity is at least qty, and (b) the
registry contains a station named stationName. -/
theorem replenish_true_iff_first_entry (m : StationManager) (sn inn : String) (q : Int) :
    (m.replenishStationIngredientFromBackup sn inn q).1 = true ↔
      (∃ pre e post, FirstNamed m.backup_ingredients_ pre e post inn ∧ q ≤ e.quantity) ∧
      (∃ s ∈ m.stations, s.name = sn) := by
  rcases StationManager.replenish_cases m sn inn q with ⟨hf, hc⟩ |
    ⟨pre, e, post, spre, s, spost, hb, hq, hs, hr⟩
  · rw [hf]
    constructor
    · intro h; exact absurd h (by simp)
    · rintro ⟨⟨pre, e, post, ⟨hb, hpre, he⟩, hq⟩, s, hs, hsn⟩
      rcases hc with hc | ⟨pre', e', post', ⟨hb', hpre', he'⟩, hq'⟩ | hc
      · exact absurd he (hc e (by rw [hb]; simp))
      · obtain ⟨_, hee, _⟩ := first_split_unique (fun x : Ingredient => x.name = inn)
          pre pre' post post' e e' (hb ▸ hb') hpre he hpre' he'
        rw [hee] at hq
        exact absurd hq (not_le.2 hq')
      · exact absurd hsn (hc s hs)
  · rw [hr]
    refine ⟨fun _ => ⟨⟨pre, e, post, hb, hq⟩, s, ?_, hs.2.2⟩, fun _ => rfl⟩
    rw [hs.1]; simp

namespace StationManager

/-- The accumulating step of the replenishment loop. -/
theorem replenishAll_cons (m : StationManager) (sn : String) (x : Ingredient)
    (l : List Ingredient) :
    m.replenishAll sn (x :: l) =
      (((m.replenishStationIngredientFromBackup sn x.name x.quantity).1 &&
          ((m.replenishStationIngredientFromBackup sn x.name x.quantity).2.replenishAll sn l).1),
        ((m.replenishStationIngredientFromBackup sn x.name x.quantity).2.replenishAll sn l).2) := by
  have key : ∀ (l : List Ingredient) (b : Bool) (m' : StationManager),
      l.foldl (fun (acc : Bool × StationManager) ingredient =>
          let r := acc.2.replenishIngredient sn ingredient.name ingredient.quantity
          (acc.1 && r.1, r.2)) (b, m')
        = (b && (m'.replenishAll sn l).1, (m'.replenishAll sn l).2) := by
    intro l
    induction l with
    | nil => intro b m'; simp [replenishAll]
    | cons y l ih =>
      intro b m'
      simp only [List.foldl_cons, replenishAll]
      rw [ih, ih]
      simp [replenishAll, Bool.and_assoc]
  simp only [replenishAll, List.foldl_cons, Bool.true_and]
  rw [key]
  simp [replenishAll, replenishIngredient]

theorem replenishAll_nil (m : StationManager) (sn : String) :
    m.replenishAll sn [] = (true, m) := rfl

/-- A property kept by every single replenishment is kept by the replenishment loop. -/
theorem replenishAll_inv (P : StationManager → Prop)
    (hP : ∀ (m : StationManager) (sn inn : String) (q : Int),
      P m → P (m.replenishStationIngredientFromBackup sn inn q).2)
    (m : StationManager) (sn : String) (l : List Ingredient) (h : P m) :
    P (m.replenishAll sn l).2 := by
  induction l generalizing m with
  | nil => simpa [replenishAll_nil] using h
  | cons x l ih =>
    rw [replenishAll_cons]
    exact ih _ (hP m sn x.name x.quantity h)

theorem replenish_queue (m : StationManager) (sn inn : String) (q : Int) :
    (m.replenishStationIngredientFromBackup sn inn q).2.dish_queue_ = m.dish_queue_ := by
  rcases replenish_cases m sn inn q with ⟨hf, _⟩ | ⟨_, _, _, _, _, _, _, _, _, hr⟩
  · rw [hf]
  · rw [hr]

theorem replenish_length (m : StationManager) (sn inn : String) (q : Int) :
    (m.replenishStationIngredientFromBackup sn inn q).2.stations.length
      = m.stations.length := by
  rcases replenish_cases m sn inn q with ⟨hf, _⟩ | ⟨_, _, _, spre, s, spost, _, _, hs, hr⟩
  · rw [hf]
  · rw [hr, hs.1]; simp

theorem replenishAll_queue (m : StationManager) (sn : String) (l : List Ingredient) :
    (m.replenishAll sn l).2.dish_queue_ = m.dish_queue_ :=
  replenishAll_inv (fun x => x.dish_queue_ = m.dish_queue_)
    (fun m' sn inn q h => by show _ = _; rw [replenish_queue]; exact h) m sn l rfl

theorem replenishAll_length (m : StationManager) (sn : String) (l : List Ingredient) :
    (m.replenishAll sn l).2.stations.length = m.stations.length :=
  replenishAll_inv (fun x => x.stations.length = m.stations.length)
    (fun m' sn inn q h => by show _ = _; rw [replenish_length]; exact h) m sn l rfl

theorem setStation_queue (m : StationManager) (i : Nat) (s : KitchenStation) :
    (m.setStation i s).dish_queue_ = m.dish_queue_ := rfl

theorem setStation_length (m : StationManager) (i : Nat) (s : KitchenStation) :
    (m.setStation i s).stations.length = m.stations.length := by
  simp [setStation, modifyAt_length]

theorem popDish_length (m : StationManager) :
    m.popDish.stations.length = m.stations.length := rfl

/-- One loop body keeps the registry length, pops the queue when it sets the flag and
leaves the queue alone otherwise. -/
theorem attemptStation_frame (dish : Dish) (i : Nat) (st : KitchenStation)
    (m : StationManager) :
    (attemptStation dish i st m).2.stations.length = m.stations.length ∧
    ((attemptStation dish i st m).1 = true →
      (attemptStation dish i st m).2.dish_queue_ = m.dish_queue_.tail) ∧
    ((attemptStation dish i st m).1 = false →
      (attemptStation dish i st m).2.dish_queue_ = m.dish_queue_) := by
  unfold attemptStation
  by_cases hc : st.canPrepare dish = true
  · simp only [hc, if_true]
    by_cases h1 : (st.prepareDish dish.name).1 = true
    · simp only [h1, if_true]
      simp [popDish, setStation, modifyAt_length]
    · simp only [h1, Bool.false_eq_true, if_false]
      by_cases h2 : ((m.setStation i (st.prepareDish dish.name).2).replenishAll
          (st.prepareDish dish.name).2.name dish.ingredients).1 = true
      · simp only [h2, if_true]
        cases h3 : ((m.setStation i (st.prepareDish dish.name).2).replenishAll
            (st.prepareDish dish.name).2.name dish.ingredients).2.stations.get? i with
        | none =>
          simp [replenishAll_length, replenishAll_queue, setStation_length, setStation_queue]
        | some st1 =>
          by_cases h4 : (st1.prepareDish dish.name).1 = true
          · simp [h4, popDish, replenishAll_length, replenishAll_queue, setStation_length,
              setStation_queue]
          · simp [h4, replenishAll_length, replenishAll_queue, setStation_length,
              setStation_queue]
      · simp [h2, replenishAll_length, replenishAll_queue, setStation_length,
          setStation_queue]
  · simp [hc]

theorem scanStations_none (dish : Dish) (fuel i : Nat) (m : StationManager)
    (hg : m.stations.get? i = none) : scanStations dish fuel i m = (false, m) := by
  cases fuel with
  | zero => rfl
  | succ fuel => simp only [scanStations, hg]

theorem scanStations_hit (dish : Dish) (fuel i : Nat) (m : StationManager)
    (st : KitchenStation) (hg : m.stations.get? i = some st)
    (hr : (attemptStation dish i st m).1 = true) :
    scanStations dish (fuel + 1) i m = attemptStation dish i st m := by
  simp only [scanStations, hg, hr, if_true]

theorem scanStations_miss (dish : Dish) (fuel i : Nat) (m : StationManager)
    (st : KitchenStation) (hg : m.stations.get? i = some st)
    (hr : (attemptStation dish i st m).1 = false) :
    scanStations dish (fuel + 1) i m
      = scanStations dish fuel (i + 1) (attemptStation dish i st m).2 := by
  simp only [scanStations, hg, hr, Bool.false_eq_true, if_false]

/-- The scan keeps the registry length, pops the queue when it succeeds and leaves the
queue alone when it fails. -/
theorem scanStations_frame (dish : Dish) (fuel i : Nat) (m : StationManager) :
    (scanStations dish fuel i m).2.stations.length = m.stations.length ∧
    ((scanStations dish fuel i m).1 = true →
      (scanStations dish fuel i m).2.dish_queue_ = m.dish_queue_.tail) ∧
    ((scanStations dish fuel i m).1 = false →
      (scanStations dish fuel i m).2.dish_queue_ = m.dish_queue_) := by
  induction fuel generalizing i m with
  | zero => simp [scanStations]
  | succ fuel ih =>
    cases hg : m.stations.get? i with
    | none => rw [scanStations_none dish _ i m hg]; simp
    | some st =>
      obtain ⟨hl, ht, hf⟩ := attemptStation_frame dish i st m
      by_cases hr : (attemptStation dish i st m).1 = true
      · rw [scanStations_hit dish fuel i m st hg hr]
        exact ⟨hl, ht, hf⟩
      · have hr' : (attemptStation dish i st m).1 = false := by simpa using hr
        rw [scanStations_miss dish fuel i m st hg hr']
        obtain ⟨hl2, ht2, hf2⟩ := ih (i + 1) (attemptStation dish i st m).2
        refine ⟨by rw [hl2, hl], ?_, ?_⟩
        · intro h; rw [ht2 h, hf hr']
        · intro h; rw [hf2 h, hf hr']

/-- The registry length is enough fuel: once the bound covers the nodes from position `i`
to the end of the list, a larger bound gives the same result, so the scan of
`prepareNextDish` always ends at the end of the list and never on the bound. -/
theorem scanStations_fuel (dish : Dish) (fuel i : Nat) (m : StationManager)
    (h : m.stations.length ≤ i + fuel) (extra : Nat) :
    scanStations dish (fuel + extra) i m = scanStations dish fuel i m := by
  induction fuel generalizing i m with
  | zero =>
    have hg : m.stations.get? i = none := List.get?_eq_none.2 (by omega)
    rw [scanStations_none dish _ i m hg, scanStations_none dish _ i m hg]
  | succ fuel ih =>
    have e : fuel + 1 + extra = (fuel + extra) + 1 := by omega
    rw [e]
    cases hg : m.stations.get? i with
    | none => rw [scanStations_none dish _ i m hg, scanStations_none dish _ i m hg]
    | some st =>
      by_cases hr : (attemptStation dish i st m).1 = true
      · rw [scanStations_hit dish _ i m st hg hr, scanStations_hit dish _ i m st hg hr]
      · have hr' : (attemptStation dish i st m).1 = false := by simpa using hr
        rw [scanStations_miss dish _ i m st hg hr', scanStations_miss dish _ i m st hg hr']
        apply ih
        rw [(attemptStation_frame dish i st m).1]
        omega

/-- Registry length and queue after `prepareNextDish`. -/
theorem prepareNextDish_frame (m : StationManager) :
    m.prepareNextDish.2.stations.length = m.stations.length ∧
    (m.prepareNextDish.1 = true → m.prepareNextDish.2.dish_queue_ = m.dish_queue_.tail) ∧
    (m.prepareNextDish.1 = false → m.prepareNextDish.2.dish_queue_ = m.dish_queue_) := by
  unfold prepareNextDish
  cases hq : m.dish_queue_ with
  | nil => simp [hq]
  | cons d rest =>
    simp only
    have := scanStations_frame d m.stations.length 0 m
    rw [hq] at this
    exact this

end StationManager

/-! ## The scan and the stations that prepare the dish -/

theorem prepareDish_false (s : KitchenStation) (n : String)
    (h : (s.prepareDish n).1 = false) : (s.prepareDish n).2 = s := by
  unfold KitchenStation.prepareDish at h ⊢
  cases hf : s.dishes.find? (fun d => decide (d.name = n)) with
  | none => rfl
  | some d =>
    rw [hf] at h
    by_cases hc : stockCovers s.ingredients_stock d.ingredients = true
    · simp [hc] at h
    · simp [hc]

theorem modifyAt_const_self {α : Type} (l : List α) (i : Nat) (x : α)
    (h : l.get? i = some x) : modifyAt (fun _ => x) i l = l := by
  induction l generalizing i with
  | nil => simp [modifyAt]
  | cons a l ih =>
    cases i with
    | zero => simp at h; simp [modifyAt, h]
    | succ i => rw [List.get?_cons_succ] at h; simp [modifyAt, ih i h]

namespace StationManager

theorem setStation_self (m : StationManager) (i : Nat) (st : KitchenStation)
    (h : m.stations.get? i = some st) : m.setStation i st = m := by
  unfold setStation
  rw [modifyAt_const_self _ _ _ h]

/-- The loop body sets the flag exactly when the station prepares the dish. -/
theorem attemptStation_iff (dish : Dish) (i : Nat) (st : KitchenStation)
    (m : StationManager) (hg : m.stations.get? i = some st) :
    (attemptStation dish i st m).1 = true ↔ PreparedBy dish i m := by
  unfold attemptStation PreparedBy
  by_cases hc : st.canPrepare dish = true
  · simp only [hc, if_true]
    by_cases h1 : (st.prepareDish dish.name).1 = true
    · simp only [h1, if_true]
      exact ⟨fun _ => ⟨st, hg, hc, Or.inl h1⟩, fun _ => by trivial⟩
    · have h1' : (st.prepareDish dish.name).1 = false := by simpa using h1
      have h2 : (st.prepareDish dish.name).2 = st := prepareDish_false st _ h1'
      simp only [h1', Bool.false_eq_true, if_false, h2, setStation_self m i st hg]
      by_cases h3 : (m.replenishAll st.name dish.ingredients).1 = true
      · simp only [h3, if_true]
        cases h4 : (m.replenishAll st.name dish.ingredients).2.stations.get? i with
        | none =>
          simp only
          constructor
          · intro h; exact absurd h (by simp)
          · rintro ⟨st', hg', _, hd | ⟨_, _, st1, hst1, _⟩⟩
            · rw [hg] at hg'; cases hg'; exact absurd hd h1
            · rw [hg] at hg'; cases hg'; rw [h4] at hst1; exact absurd hst1 (by simp)
        | some st1 =>
          simp only
          by_cases h5 : (st1.prepareDish dish.name).1 = true
          · simp only [h5, if_true]
            exact ⟨fun _ => ⟨st, hg, hc, Or.inr ⟨h1', h3, st1, h4, h5⟩⟩, fun _ => by trivial⟩
          · simp only [h5, Bool.false_eq_true, if_false]
            constructor
            · intro h; exact absurd h (by simp)
            · rintro ⟨st', hg', _, hd | ⟨_, _, st2, hst2, hp⟩⟩
              · rw [hg] at hg'; cases hg'; exact absurd hd h1
              · rw [hg] at hg'; cases hg'
                rw [h4] at hst2; cases hst2
                exact absurd hp h5
      · simp only [h3, Bool.false_eq_true, if_false]
        constructor
        · intro h; exact absurd h (by simp)
        · rintro ⟨st', hg', _, hd | ⟨_, hr, _⟩⟩
          · rw [hg] at hg'; cases hg'; exact absurd hd h1
          · rw [hg] at hg'; cases hg'; exact absurd hr h3
  · simp only [hc, Bool.false_eq_true, if_false]
    constructor
    · intro h; exact absurd h (by simp)
    · rintro ⟨st', hg', hc', _⟩
      rw [hg] at hg'; cases hg'
      exact absurd hc' hc

theorem stateAfterAttempts_none (dish : Dish) (n i : Nat) (m : StationManager)
    (hg : m.stations.get? i = none) : stateAfterAttempts dish n i m = m := by
  cases n with
  | zero => rfl
  | succ n => simp only [stateAfterAttempts, hg]

theorem stateAfterAttempts_some (dish : Dish) (n i : Nat) (m : StationManager)
    (st : KitchenStation) (hg : m.stations.get? i = some st) :
    stateAfterAttempts dish (n + 1) i m
      = stateAfterAttempts dish n (i + 1) (attemptStation dish i st m).2 := by
  simp only [stateAfterAttempts, hg]

/-- The scan succeeds exactly when some station prepares the dish in the state in which
the scan reaches it; the first such station is the one where the scan stops. -/
theorem scanStations_iff (dish : Dish) (fuel i : Nat) (m : StationManager) :
    (scanStations dish fuel i m).1 = true ↔
      ∃ k, k < fuel ∧ PreparedBy dish (i + k) (stateAfterAttempts dish k i m) ∧
        ∀ j, j < k → ¬ PreparedBy dish (i + j) (stateAfterAttempts dish j i m) := by
  induction fuel generalizing i m with
  | zero => simp [scanStations]
  | succ fuel ih =>
    cases hg : m.stations.get? i with
    | none =>
      rw [scanStations_none dish _ i m hg]
      constructor
      · intro h; exact absurd h (by simp)
      · rintro ⟨k, _, ⟨st, hst, _⟩, _⟩
        rw [stateAfterAttempts_none dish k i m hg] at hst
        have hlen : m.stations.length ≤ i := List.get?_eq_none.1 hg
        have : m.stations.get? (i + k) = none := List.get?_eq_none.2 (by omega)
        rw [this] at hst
        exact absurd hst (by simp)
    | some st =>
      by_cases hr : (attemptStation dish i st m).1 = true
      · rw [scanStations_hit dish fuel i m st hg hr]
        refine ⟨fun _ => ⟨0, Nat.succ_pos _, ?_, ?_⟩, fun _ => hr⟩
        · exact (attemptStation_iff dish i st m hg).1 hr
        · intro j hj; exact absurd hj (Nat.not_lt_zero _)
      · have hr' : (attemptStation dish i st m).1 = false := by simpa using hr
        have hnp : ¬ PreparedBy dish i m :=
          fun hp => hr ((attemptStation_iff dish i st m hg).2 hp)
        rw [scanStations_miss dish fuel i m st hg hr', ih]
        constructor
        · rintro ⟨k, hk, hp, hall⟩
          refine ⟨k + 1, Nat.succ_lt_succ hk, ?_, ?_⟩
          · rw [stateAfterAttempts_some dish k i m st hg]
            have e : i + (k + 1) = i + 1 + k := by omega
            rw [e]; exact hp
          · intro j hj
            cases j with
            | zero => exact hnp
            | succ j =>
              rw [stateAfterAttempts_some dish j i m st hg]
              have e : i + (j + 1) = i + 1 + j := by omega
              rw [e]; exact hall j (by omega)
        · rintro ⟨k, hk, hp, hall⟩
          cases k with
          | zero => exact absurd hp hnp
          | succ k =>
            refine ⟨k, by omega, ?_, ?_⟩
            · rw [stateAfterAttempts_some dish k i m st hg] at hp
              have e : i + (k + 1) = i + 1 + k := by omega
              rw [e] at hp; exact hp
            · intro j hj
              have := hall (j + 1) (by omega)
              rw [stateAfterAttempts_some dish j i m st hg] at this
              have e : i + (j + 1) = i + 1 + j := by omega
              rw [e] at this; exact this

end StationManager

/-! ## prepareNextDish -/

/-- C4: the scenario "success after replenishment".  Queue [DishA, DishB], DishA needing
2 Flour, the single station Grill knowing DishA and holding 0 Flour (no Flour record, or
a Flour record of quantity 0), backup pool of 5 Flour.  The direct attempt at Grill
fails, the replenishment succeeds and leaves Grill with 2 Flour and the pool with 3, the
retry is made in that state and succeeds, and prepareNextDish returns true with the queue
[DishB] and the pool holding exactly 3 Flour. -/
theorem prepareNextDish_scenario_replenished :
    ((scenario [] 5).prepareNextDish.1 = true ∧
      (scenario [] 5).prepareNextDish.2.dish_queue_ = [dishB] ∧
      (scenario [] 5).prepareNextDish.2.backup_ingredients_ = [flour 3] ∧
      stockQuantity (grill []).ingredients_stock "Flour" = 0 ∧
      (grill []).canPrepare dishA = true ∧
      (grill []).prepareDish "DishA" = (false, grill []) ∧
      ((scenario [] 5).replenishAll "Grill" dishA.ingredients).1 = true ∧
      ((scenario [] 5).replenishAll "Grill" dishA.ingredients).2
        = { stations := [grill [flour 2]], dish_queue_ := [dishA, dishB],
            backup_ingredients_ := [flour 3] } ∧
      stockQuantity (grill [flour 2]).ingredients_stock "Flour" = 2 ∧
      ((grill [flour 2]).prepareDish "DishA").1 = true ∧
      (scenario [] 5).prepareNextDish.2 =
        ((((scenario [] 5).replenishAll "Grill" dishA.ingredients).2.setStation 0
          ((grill [flour 2]).prepareDish "DishA").2).popDish)) ∧
    ((scenario [flour 0] 5).prepareNextDish.1 = true ∧
      (scenario [flour 0] 5).prepareNextDish.2.dish_queue_ = [dishB] ∧
      (scenario [flour 0] 5).prepareNextDish.2.backup_ingredients_ = [flour 3] ∧
      stockQuantity (grill [flour 0]).ingredients_stock "Flour" = 0 ∧
      (grill [flour 0]).canPrepare dishA = true ∧
      (grill [flour 0]).prepareDish "DishA" = (false, grill [flour 0]) ∧
      ((scenario [flour 0] 5).replenishAll "Grill" dishA.ingredients).1 = true ∧
      ((scenario [flour 0] 5).replenishAll "Grill" dishA.ingredients).2
        = { stations := [grill [flour 2]], dish_queue_ := [dishA, dishB],
            backup_ingredients_ := [flour 3] } ∧
      stockQuantity (grill [flour 2]).ingredients_stock "Flour" = 2 ∧
      ((grill [flour 2]).prepareDish "DishA").1 = true ∧
      (scenario [flour 0] 5).prepareNextDish.2 =
        ((((scenario [flour 0] 5).replenishAll "Grill" dishA.ingredients).2.setStation 0
          ((grill [flour 2]).prepareDish "DishA").2).popDish)) := by
  decide

/-- C5: the scenario "insufficient backup".  Same setup with a backup pool of only 1
Flour: prepareNextDish returns false, the queue is still [DishA, DishB] with DishA at
the head, the pool still holds 1 Flour and Grill still holds 0 Flour; the whole state is
as before the call. -/
theorem prepareNextDish_scenario_insufficient :
    ((scenario [] 1).prepareNextDish.1 = false ∧
      (scenario [] 1).prepareNextDish.2.dish_queue_ = [dishA, dishB] ∧
      (scenario [] 1).prepareNextDish.2.dish_queue_.head? = some dishA ∧
      (scenario [] 1).prepareNextDish.2.backup_ingredients_ = [flour 1] ∧
      (scenario [] 1).prepareNextDish.2.stations = [grill []] ∧
      stockQuantity (grill []).ingredients_stock "Flour" = 0 ∧
      (scenario [] 1).prepareNextDish.2 = scenario [] 1) ∧
    ((scenario [flour 0] 1).prepareNextDish.1 = false ∧
      (scenario [flour 0] 1).prepareNextDish.2.dish_queue_ = [dishA, dishB] ∧
      (scenario [flour 0] 1).prepareNextDish.2.dish_queue_.head? = some dishA ∧
      (scenario [flour 0] 1).prepareNextDish.2.backup_ingredients_ = [flour 1] ∧
      (scenario [flour 0] 1).prepareNextDish.2.stations = [grill [flour 0]] ∧
      stockQuantity (grill [flour 0]).ingredients_stock "Flour" = 0 ∧
      (scenario [flour 0] 1).prepareNextDish.2 = scenario [flour 0] 1) := by
  decide

/-- C6: for every manager state with a non-empty queue d :: rest, prepareNextDish either
returns true and the queue becomes exactly rest, or returns false and the queue is
exactly d :: rest; and it returns true if and only if some station of the registry
prepares d (directly, or after a replenishment in which every ingredient succeeded) in
the state in which the scan reaches it, no station before it having done so. -/
theorem prepareNextDish_queue_and_result (m : StationManager) (d : Dish) (rest : List Dish)
    (hq : m.dish_queue_ = d :: rest) :
    ((m.prepareNextDish.1 = true ∧ m.prepareNextDish.2.dish_queue_ = rest) ∨
      (m.prepareNextDish.1 = false ∧ m.prepareNextDish.2.dish_queue_ = d :: rest)) ∧
    (m.prepareNextDish.1 = true ↔
      ∃ k, k < m.stations.length ∧
        PreparedBy d k (stateAfterAttempts d k 0 m) ∧
        ∀ j, j < k → ¬ PreparedBy d j (stateAfterAttempts d j 0 m)) := by
  constructor
  · obtain ⟨_, ht, hf⟩ := StationManager.prepareNextDish_frame m
    cases hr : m.prepareNextDish.1 with
    | true => left; exact ⟨rfl, by rw [ht hr, hq]; rfl⟩
    | false => right; exact ⟨rfl, by rw [hf hr, hq]⟩
  · have h := StationManager.scanStations_iff d m.stations.length 0 m
    simp only [Nat.zero_add] at h
    unfold StationManager.prepareNextDish
    rw [hq]
    exact h

/-- Witness for C6: the replenishment scenario, where Grill prepares DishA. -/
theorem prepareNextDish_queue_and_result_witness :
    (scenario [] 5).dish_queue_ = dishA :: [dishB] ∧
    (((scenario [] 5).prepareNextDish.1 = true ∧
        (scenario [] 5).prepareNextDish.2.dish_queue_ = [dishB]) ∨
      ((scenario [] 5).prepareNextDish.1 = false ∧
        (scenario [] 5).prepareNextDish.2.dish_queue_ = dishA :: [dishB])) ∧
    ((scenario [] 5).prepareNextDish.1 = true ↔
      ∃ k, k < (scenario [] 5).stations.length ∧
        PreparedBy dishA k (stateAfterAttempts dishA k 0 (scenario [] 5)) ∧
        ∀ j, j < k → ¬ PreparedBy dishA j (stateAfterAttempts dishA j 0 (scenario [] 5))) :=
  ⟨rfl, prepareNextDish_queue_and_result (scenario [] 5) dishA [dishB] rfl⟩

/-- C7: for every manager state whose dish queue is empty, prepareNextDish returns false
and returns the state unchanged: registry, every station's stock, backup pool and
queue. -/
theorem prepareNextDish_empty_queue (m : StationManager) (hq : m.dish_queue_ = []) :
    m.prepareNextDish.1 = false ∧ m.prepareNextDish.2 = m ∧
    m.prepareNextDish.2.stations = m.stations ∧
    m.prepareNextDish.2.backup_ingredients_ = m.backup_ingredients_ ∧
    m.prepareNextDish.2.dish_queue_ = [] := by
  unfold StationManager.prepareNextDish
  rw [hq]
  exact ⟨rfl, rfl, rfl, rfl, hq⟩

/-- Witness for C7: a manager with one station, some backup and no dish. -/
theorem prepareNextDish_empty_queue_witness :
    (⟨[grill [flour 1]], [], [flour 4]⟩ : StationManager).dish_queue_ = [] ∧
    (⟨[grill [flour 1]], [], [flour 4]⟩ : StationManager).prepareNextDish.1 = false ∧
    (⟨[grill [flour 1]], [], [flour 4]⟩ : StationManager).prepareNextDish.2
      = ⟨[grill [flour 1]], [], [flour 4]⟩ :=
  ⟨rfl, (prepareNextDish_empty_queue ⟨[grill [flour 1]], [], [flour 4]⟩ rfl).1,
   (prepareNextDish_empty_queue ⟨[grill [flour 1]], [], [flour 4]⟩ rfl).2.1⟩

/-! ## processAllDishes -/

theorem failedDishes_sublist (q : List Dish) (log : List StationManager.Attempt) :
    (failedDishes q log).Sublist q := by
  induction q generalizing log with
  | nil => simp [failedDishes]
  | cons d ds ih =>
    cases log with
    | nil => simp [failedDishes]
    | cons a as =>
      by_cases ha : a.prepared = true
      · simp only [failedDishes, ha, if_true]
        exact (ih as).cons d
      · simp only [failedDishes, ha, Bool.false_eq_true, if_false]
        exact (ih as).cons₂ d

namespace StationManager

/-- Loop invariant of `processAllDishes`: with the dishes `todo` still to be attempted at
the front of the queue and the dishes `kept` behind them, the loop runs `todo.length`
iterations without reading an empty queue, attempts the dishes of `todo` in order, and
ends with `kept` followed by the dishes of `todo` whose attempt failed. -/
theorem processLoop_spec (todo : List Dish) :
    ∀ (m : StationManager) (kept : List Dish), m.dish_queue_ = todo ++ kept →
      ∃ log m', processLoop todo.length m = some (log, m') ∧
        log.map (fun a => a.front) = todo.map some ∧
        m'.dish_queue_ = kept ++ failedDishes todo log ∧
        m'.dish_queue_.length + successes log = kept.length + todo.length := by
  induction todo with
  | nil =>
    intro m kept hq
    exact ⟨[], m, rfl, rfl, by simpa [failedDishes] using hq, by simp [hq, successes]⟩
  | cons d todo ih =>
    intro m kept hq
    obtain ⟨_, ht, hf⟩ := prepareNextDish_frame m
    have hhead : m.dish_queue_.head? = some d := by rw [hq]; rfl
    by_cases hr : m.prepareNextDish.1 = true
    · have hq1 : m.prepareNextDish.2.dish_queue_ = todo ++ kept := by
        rw [ht hr, hq]; rfl
      obtain ⟨log, m', hl, hfront, hqueue, hlen⟩ := ih m.prepareNextDish.2 kept hq1
      refine ⟨{ front := some d, prepared := true } :: log, m', ?_, ?_, ?_, ?_⟩
      · simp only [List.length_cons, processLoop, hr, if_true, hl, hhead, Option.map_some']
      · simp [hfront]
      · simp [failedDishes, hqueue]
      · simp only [successes, List.filter_cons, if_true, List.length_cons] at hlen ⊢
        omega
    · have hr' : m.prepareNextDish.1 = false := by simpa using hr
      have hq1 : m.prepareNextDish.2.dish_queue_ = d :: (todo ++ kept) := by
        rw [hf hr', hq]; rfl
      have hq2 : ({ m.prepareNextDish.2 with dish_queue_ := (todo ++ kept) ++ [d] } :
          StationManager).dish_queue_ = todo ++ (kept ++ [d]) := by simp
      obtain ⟨log, m', hl, hfront, hqueue, hlen⟩ := ih _ (kept ++ [d]) hq2
      refine ⟨{ front := some d, prepared := false } :: log, m', ?_, ?_, ?_, ?_⟩
      · simp only [List.length_cons, processLoop, hr', Bool.false_eq_true, if_false, hq1, hl,
          hhead, Option.map_some']
      · simp [hfront]
      · simp [failedDishes, hqueue]
      · simp only [successes, List.filter_cons, Bool.false_eq_true, if_false,
          List.length_cons, List.length_append, List.length_nil] at hlen ⊢
        omega

end StationManager

/-- The state in which an iteration starts is one `iterationStep` after the state in
which the iteration before it starts. -/
theorem stateBeforeIteration_succ (i : Nat) (m : StationManager) :
    stateBeforeIteration (i + 1) m = iterationStep (stateBeforeIteration i m) := by
  induction i generalizing m with
  | zero => rfl
  | succ i ih =>
    show stateBeforeIteration (i + 1) (iterationStep m) = _
    rw [ih (iterationStep m)]
    rfl

/-- The dishes kept by a log agree with the dishes kept position by position, when the
entry at position `i` of the log records the result `f i`. -/
theorem failedDishes_eq_filterMap (q : List Dish) :
    ∀ (log : List StationManager.Attempt) (f : Nat → Bool), log.length = q.length →
      (∀ i, i < q.length → ∃ a, log.get? i = some a ∧ a.prepared = f i) →
      failedDishes q log
        = (List.range q.length).filterMap (fun i => if f i then none else q.get? i) := by
  induction q with
  | nil => intro log f _ _; cases log <;> simp [failedDishes]
  | cons d ds ih =>
    intro log f hlen hlog
    cases log with
    | nil => simp at hlen
    | cons a as =>
      obtain ⟨a0, ha0, hf0⟩ := hlog 0 (by simp)
      simp only [List.get?_cons_zero, Option.some.injEq] at ha0
      subst ha0
      have hrest := ih as (fun i => f (i + 1)) (by simpa using hlen)
        (fun i hi => by
          obtain ⟨b, hb, hfb⟩ := hlog (i + 1) (by simpa using hi)
          exact ⟨b, by simpa using hb, hfb⟩)
      simp only [List.length_cons, List.range_succ_eq_map, List.filterMap_cons,
        List.filterMap_map]
      have hfun : ((fun i => if f i = true then none else (d :: ds).get? i) ∘ Nat.succ)
          = (fun i => if f (i + 1) = true then none else ds.get? i) := by
        funext i
        simp
      rw [hfun, ← hrest]
      by_cases h0 : f 0 = true
      · simp [failedDishes, hf0, h0]
      · simp [failedDishes, hf0, h0]

/-- The successes of a log are the positions whose recorded result is true. -/
theorem successes_eq_filter (n : Nat) :
    ∀ (log : List StationManager.Attempt) (f : Nat → Bool), log.length = n →
      (∀ i, i < n → ∃ a, log.get? i = some a ∧ a.prepared = f i) →
      successes log = ((List.range n).filter f).length := by
  induction n with
  | zero => intro log f hlen _; cases log <;> simp_all [successes]
  | succ n ih =>
    intro log f hlen hlog
    cases log with
    | nil => simp at hlen
    | cons a as =>
      obtain ⟨a0, ha0, hf0⟩ := hlog 0 (by simp)
      simp only [List.get?_cons_zero, Option.some.injEq] at ha0
      subst ha0
      have hrest := ih as (fun i => f (i + 1)) (by simpa using hlen)
        (fun i hi => by
          obtain ⟨b, hb, hfb⟩ := hlog (i + 1) (by simpa using hi)
          exact ⟨b, by simpa using hb, hfb⟩)
      simp only [successes] at hrest ⊢
      simp only [List.range_succ_eq_map, List.filter_cons, List.filter_map, List.length_map]
      have hfun : (f ∘ Nat.succ) = (fun i => f (i + 1)) := by funext i; rfl
      rw [hfun, hf0]
      by_cases h0 : f 0 = true
      · simp [h0, hrest]
      · simp [h0, hrest]

namespace StationManager

/-- The loop of `processAllDishes` against the iterations of the specification: run for
`n` iterations on a queue of at least `n` dishes, it ends in the state in which
iteration `n` would start, and its log records, for each iteration, the head of the
queue on which `prepareNextDish` was invoked and what that invocation returned. -/
theorem processLoop_trace (n : Nat) :
    ∀ (m : StationManager), n ≤ m.dish_queue_.length →
      ∃ log, processLoop n m = some (log, stateBeforeIteration n m) ∧ log.length = n ∧
        ∀ i, i < n → log.get? i = some
          { front := (stateBeforeIteration i m).dish_queue_.head?,
            prepared := (stateBeforeIteration i m).prepareNextDish.1 } := by
  induction n with
  | zero =>
    intro m _
    exact ⟨[], rfl, rfl, fun i hi => absurd hi (Nat.not_lt_zero _)⟩
  | succ n ih =>
    intro m hn
    obtain ⟨_, ht, hf⟩ := prepareNextDish_frame m
    by_cases hr : m.prepareNextDish.1 = true
    · have hstep : iterationStep m = m.prepareNextDish.2 := by
        simp only [iterationStep, hr, if_true]
      have hlen : n ≤ m.prepareNextDish.2.dish_queue_.length := by
        rw [ht hr, List.length_tail]; omega
      obtain ⟨log, hl, hlog, hget⟩ := ih m.prepareNextDish.2 hlen
      refine ⟨{ front := m.dish_queue_.head?, prepared := m.prepareNextDish.1 } :: log,
        ?_, by simp [hlog], ?_⟩
      · simp only [processLoop, hr, if_true, hl, Option.map_some', stateBeforeIteration,
          hstep]
      · intro i hi
        cases i with
        | zero => simp [stateBeforeIteration]
        | succ i =>
          simp only [List.get?_cons_succ, stateBeforeIteration, hstep]
          exact hget i (by omega)
    · have hr' : m.prepareNextDish.1 = false := by simpa using hr
      cases hqueue : m.dish_queue_ with
      | nil => rw [hqueue] at hn; simp at hn
      | cons d rest =>
        have hq1 : m.prepareNextDish.2.dish_queue_ = d :: rest := by rw [hf hr', hqueue]
        have hstep : iterationStep m
            = { m.prepareNextDish.2 with dish_queue_ := rest ++ [d] } := by
          simp only [iterationStep, hr', Bool.false_eq_true, if_false, hq1, List.tail_cons,
            List.head?_cons, Option.toList]
        have hlen : n ≤ ({ m.prepareNextDish.2 with dish_queue_ := rest ++ [d] } :
            StationManager).dish_queue_.length := by
          rw [hqueue] at hn
          simp only [List.length_append, List.length_cons, List.length_nil] at hn ⊢
          omega
        obtain ⟨log, hl, hlog, hget⟩ := ih _ hlen
        refine ⟨{ front := m.dish_queue_.head?, prepared := m.prepareNextDish.1 } :: log,
          ?_, by simp [hlog], ?_⟩
        · simp only [processLoop, hr', Bool.false_eq_true, if_false, hq1, hl,
            Option.map_some', stateBeforeIteration, hstep]
        · intro i hi
          cases i with
          | zero => simp [stateBeforeIteration]
          | succ i =>
            simp only [List.get?_cons_succ, stateBeforeIteration, hstep]
            exact hget i (by omega)

/-- Source `processAllDishes` against the iterations of the specification: the log, the
final state and the final queue. -/
theorem processAllDishes_trace (m : StationManager) :
    ∃ log, m.processAllDishesLog
        = some (log, stateBeforeIteration m.dish_queue_.length m) ∧
      log.length = m.dish_queue_.length ∧
      log.map (fun a => a.front) = m.dish_queue_.map some ∧
      (∀ i (h : i < m.dish_queue_.length),
        (stateBeforeIteration i m).dish_queue_.head? = some (m.dish_queue_.get ⟨i, h⟩) ∧
        log.get? i = some
          { front := some (m.dish_queue_.get ⟨i, h⟩),
            prepared := (stateBeforeIteration i m).prepareNextDish.1 }) ∧
      (stateBeforeIteration m.dish_queue_.length m).dish_queue_
        = failedDishes m.dish_queue_ log ∧
      (stateBeforeIteration m.dish_queue_.length m).dish_queue_.length + successes log
        = m.dish_queue_.length := by
  obtain ⟨log, hl, hlog, hget⟩ := processLoop_trace m.dish_queue_.length m (le_refl _)
  obtain ⟨log', m', hl', hfront, hqueue, hlen⟩ := processLoop_spec m.dish_queue_ m [] (by simp)
  rw [hl] at hl'
  simp only [Option.some.injEq, Prod.mk.injEq] at hl'
  obtain ⟨rfl, rfl⟩ := hl'
  simp only [List.nil_append, List.length_nil, Nat.zero_add] at hqueue hlen
  refine ⟨log, hl, hlog, hfront, ?_, hqueue, hlen⟩
  intro i h
  have hi : i < log.length := by omega
  have h1 : (log.map (fun a => a.front)).get? i = (m.dish_queue_.map some).get? i := by
    rw [hfront]
  rw [List.get?_eq_getElem?, List.get?_eq_getElem?, List.getElem?_map, List.getElem?_map,
    ← List.get?_eq_getElem?, hget i h, List.getElem?_eq_getElem h] at h1
  simp only [Option.map_some', Option.some.injEq] at h1
  refine ⟨h1, ?_⟩
  rw [hget i h, h1]
  rfl

end StationManager

/-- C8: processAllDishes on a queue of N dishes [d1..dN] completes in the state reached by
N iterations (invoke prepareNextDish, rotate the head dish to the back on failure), and
the queue it leaves is exactly the dishes di for which prepareNextDish, invoked at
iteration i with di at the head, returned false, in their original relative order: a
subsequence of the initial queue, of length N minus the number of invocations that
returned true. -/
theorem processAllDishes_keeps_failed (m : StationManager) :
    ∃ log m', m.processAllDishesLog = some (log, m') ∧ m.processAllDishes = some m' ∧
      m' = stateBeforeIteration m.dish_queue_.length m ∧
      log.length = m.dish_queue_.length ∧
      log.map (fun a => a.front) = m.dish_queue_.map some ∧
      (∀ i (h : i < m.dish_queue_.length),
        (stateBeforeIteration i m).dish_queue_.head? = some (m.dish_queue_.get ⟨i, h⟩) ∧
        log.get? i = some
          { front := some (m.dish_queue_.get ⟨i, h⟩),
            prepared := (stateBeforeIteration i m).prepareNextDish.1 }) ∧
      m'.dish_queue_ = unpreparedDishes m ∧
      m'.dish_queue_ = failedDishes m.dish_queue_ log ∧
      m'.dish_queue_.Sublist m.dish_queue_ ∧
      successes log = preparedCount m ∧
      m'.dish_queue_.length = m.dish_queue_.length - preparedCount m ∧
      m'.dish_queue_.length = m.dish_queue_.length - successes log ∧
      successes log ≤ m.dish_queue_.length := by
  obtain ⟨log, hl, hlog, hfront, hpin, hqueue, hlen⟩ :=
    StationManager.processAllDishes_trace m
  have hres : ∀ i, i < m.dish_queue_.length → ∃ a, log.get? i = some a ∧
      a.prepared = (stateBeforeIteration i m).prepareNextDish.1 :=
    fun i hi => ⟨_, (hpin i hi).2, rfl⟩
  have hun : failedDishes m.dish_queue_ log = unpreparedDishes m :=
    failedDishes_eq_filterMap m.dish_queue_ log
      (fun i => (stateBeforeIteration i m).prepareNextDish.1) hlog hres
  have hsucc : successes log = preparedCount m :=
    successes_eq_filter m.dish_queue_.length log
      (fun i => (stateBeforeIteration i m).prepareNextDish.1) hlog hres
  refine ⟨log, _, hl, ?_, rfl, hlog, hfront, hpin, by rw [hqueue, hun], hqueue, ?_,
    hsucc, by omega, by omega, by omega⟩
  · simp [StationManager.processAllDishes, hl]
  · rw [hqueue]; exact failedDishes_sublist _ _

/-- C9: processAllDishes on a queue of N dishes [d1..dN] completes after exactly N
iterations, each of which invokes prepareNextDish once: iteration i invokes it on a
state whose queue head is di and records what it returned, and the call ends in the
state in which an iteration N would start; every dish of the initial queue gets exactly
one attempt, in the original order, whatever the results of the invocations are. -/
theorem processAllDishes_attempts_each_once (m : StationManager) :
    ∃ log m', m.processAllDishesLog = some (log, m') ∧
      m' = stateBeforeIteration m.dish_queue_.length m ∧
      log.length = m.dish_queue_.length ∧
      log.map (fun a => a.front) = m.dish_queue_.map some ∧
      (∀ i (h : i < m.dish_queue_.length), ∃ a, log.get? i = some a ∧
        a.front = some (m.dish_queue_.get ⟨i, h⟩)) ∧
      (∀ i (h : i < m.dish_queue_.length),
        (stateBeforeIteration i m).dish_queue_.head? = some (m.dish_queue_.get ⟨i, h⟩) ∧
        log.get? i = some
          { front := (stateBeforeIteration i m).dish_queue_.head?,
            prepared := (stateBeforeIteration i m).prepareNextDish.1 } ∧
        stateBeforeIteration (i + 1) m = iterationStep (stateBeforeIteration i m)) := by
  obtain ⟨log, hl, hlog, hfront, hpin, _, _⟩ := StationManager.processAllDishes_trace m
  refine ⟨log, _, hl, rfl, hlog, hfront, ?_, ?_⟩
  · intro i h
    exact ⟨_, (hpin i h).2, rfl⟩
  · intro i h
    refine ⟨(hpin i h).1, ?_, ?_⟩
    · rw [(hpin i h).2, (hpin i h).1]
    · exact stateBeforeIteration_succ i m

/-! ## moveStationToFront -/

namespace StationManager

theorem remove_valid (m : StationManager) (k : Nat) (hk : k < m.stations.length) :
    m.remove (k : Int) = (true, { m with stations := m.stations.eraseIdx k }) := by
  have h : (0 : Int) ≤ (k : Int) ∧ (k : Int) < m.item_count_ := by
    refine ⟨Int.natCast_nonneg k, ?_⟩
    simp only [item_count_]
    exact_mod_cast hk
  simp only [remove, h, and_self, if_true, Int.toNat_ofNat]

theorem insert_front (m : StationManager) (s : KitchenStation) :
    m.insert 0 s = (true, { m with stations := s :: m.stations }) := by
  have h : (0 : Int) ≤ 0 ∧ (0 : Int) ≤ m.item_count_ := by
    refine ⟨le_refl _, ?_⟩
    simp only [item_count_]
    exact Int.natCast_nonneg _
  simp only [insert, h, and_self, if_true, Int.toNat_zero, List.take_zero, List.drop_zero,
    List.nil_append]

/-- Outcome of `moveStationToFront` when the registry splits at the first station of the
name. -/
theorem moveStationToFront_split (m : StationManager) (n : String)
    (pre post : List KitchenStation) (s : KitchenStation)
    (h : FirstStation m.stations pre s post n) :
    m.moveStationToFront n = (true, { m with stations := s :: (pre ++ post) }) := by
  obtain ⟨hs, hpre, hsn⟩ := h
  have hfind : findIf (fun x : KitchenStation => decide (x.name = n)) m.stations
      = some pre.length :=
    (findIf_eq_some _ _ _).2 ⟨pre, s, post, hs, rfl, by simpa using hsn,
      fun y hy => by simpa using hpre y hy⟩
  have hget : m.stations.get? pre.length = some s := by
    rw [hs]; exact get?_append_cons _ _ _
  cases pre with
  | nil =>
    have hhead : m.stations.head? = some s := by rw [hs]; rfl
    simp only [moveStationToFront, findStation, hfind, hhead, hsn, if_true]
    cases m
    simp only [List.nil_append] at hs ⊢
    rw [hs]
  | cons a pre =>
    have hhead : m.stations.head? = some a := by rw [hs]; rfl
    have ha : a.name ≠ n := hpre a (by simp)
    have hidx : m.getStationIndex s.name = ((a :: pre).length : Int) := by
      simp only [getStationIndex, hsn, hfind]
    have hlt : (a :: pre).length < m.stations.length := by
      rw [hs]; simp
    have herase : m.stations.eraseIdx (a :: pre).length = (a :: pre) ++ post := by
      rw [hs]; exact eraseIdx_append_cons _ _ _
    simp only [moveStationToFront, findStation, hfind, hhead, ha, if_false, hget, hidx]
    rw [remove_valid m _ hlt, insert_front, herase]

end StationManager

/-- C10: for every registry that contains a station named n, moveStationToFront(n)
returns true and the registry becomes the first station named n followed by all other
stations in their previous relative order, the rest of the state being untouched; when
that station is already first the state is unchanged; and the registry [A,B,C] becomes
[C,A,B] for "C" and stays [A,B,C] for "A". -/
theorem moveStationToFront_found (m : StationManager) (n : String)
    (h : ∃ s ∈ m.stations, s.name = n) :
    (∃ pre s post, FirstStation m.stations pre s post n ∧
      m.moveStationToFront n = (true, { m with stations := s :: (pre ++ post) })) ∧
    (∀ s post, m.stations = s :: post → s.name = n → m.moveStationToFront n = (true, m)) ∧
    (registry [bare "A", bare "B", bare "C"]).moveStationToFront "C"
      = (true, registry [bare "C", bare "A", bare "B"]) ∧
    (registry [bare "A", bare "B", bare "C"]).moveStationToFront "A"
      = (true, registry [bare "A", bare "B", bare "C"]) := by
  refine ⟨?_, ?_, by decide, by decide⟩
  · rcases StationManager.first_split (fun x : KitchenStation => x.name = n) m.stations with
      hn | ⟨pre, s, post, hs, hpre, hsn⟩
    · obtain ⟨s, hs, hsn⟩ := h
      exact absurd hsn (hn s hs)
    · exact ⟨pre, s, post, ⟨hs, hpre, hsn⟩,
        StationManager.moveStationToFront_split m n pre post s ⟨hs, hpre, hsn⟩⟩
  · intro s post hs hsn
    have := StationManager.moveStationToFront_split m n [] post s ⟨by simpa using hs, by simp, hsn⟩
    rw [this]
    cases m
    simp only at hs
    simp [hs]

/-- Witness for C10: the registry [A,B,C] contains a station named "C". -/
theorem moveStationToFront_found_witness :
    (∃ s ∈ (registry [bare "A", bare "B", bare "C"]).stations, s.name = "C") ∧
    ∃ pre s post,
      FirstStation (registry [bare "A", bare "B", bare "C"]).stations pre s post "C" ∧
      (registry [bare "A", bare "B", bare "C"]).moveStationToFront "C"
        = (true, { registry [bare "A", bare "B", bare "C"] with
            stations := s :: (pre ++ post) }) :=
  ⟨⟨bare "C", by decide, rfl⟩,
   (moveStationToFront_found (registry [bare "A", bare "B", bare "C"]) "C"
      ⟨bare "C", by decide, rfl⟩).1⟩

/-! ## mergeStations and the not-found cases -/

theorem modifyAt_id {α : Type} (p : Nat) (l : List α) : modifyAt (fun s => s) p l = l := by
  induction l generalizing p with
  | nil => cases p <;> rfl
  | cons a l ih => cases p <;> simp [modifyAt, ih]

theorem modifyAt_modifyAt {α : Type} (f g : α → α) (p : Nat) (l : List α) :
    modifyAt g p (modifyAt f p l) = modifyAt (fun s => g (f s)) p l := by
  induction l generalizing p with
  | nil => cases p <;> rfl
  | cons a l ih => cases p <;> simp [modifyAt, ih]

/-- A loop that writes to position `p` once per element amounts to one write of the
folded update. -/
theorem foldl_modifyAt {α β : Type} (g : β → α → α) (p : Nat) (xs : List β) (l : List α) :
    xs.foldl (fun l x => modifyAt (g x) p l) l
      = modifyAt (fun s => xs.foldl (fun s x => g x s) s) p l := by
  induction xs generalizing l with
  | nil => simp [modifyAt_id]
  | cons x xs ih =>
    simp only [List.foldl_cons]
    rw [ih, modifyAt_modifyAt]

theorem modifyAt_get? {α : Type} (f : α → α) (p q : Nat) (l : List α) :
    (modifyAt f p l).get? q = if p = q then (l.get? q).map f else l.get? q := by
  induction l generalizing p q with
  | nil => cases p <;> simp [modifyAt]
  | cons a l ih =>
    cases p with
    | zero =>
      cases q with
      | zero => simp [modifyAt]
      | succ q => simp [modifyAt]
    | succ p =>
      cases q with
      | zero => simp [modifyAt]
      | succ q =>
        simp only [modifyAt, List.get?_cons_succ, ih, Nat.succ_inj']

theorem assignAll_name (s : KitchenStation) (ds : List Dish) : (assignAll s ds).name = s.name := by
  induction ds generalizing s with
  | nil => rfl
  | cons d ds ih =>
    simp only [assignAll, List.foldl_cons] at ih ⊢
    rw [ih]; rfl

theorem assignAll_stock (s : KitchenStation) (ds : List Dish) :
    (assignAll s ds).ingredients_stock = s.ingredients_stock := by
  induction ds generalizing s with
  | nil => rfl
  | cons d ds ih =>
    simp only [assignAll, List.foldl_cons] at ih ⊢
    rw [ih]; rfl

theorem assignAll_dishes (s : KitchenStation) (ds : List Dish) :
    (assignAll s ds).dishes = s.dishes ++ ds := by
  induction ds generalizing s with
  | nil => simp [assignAll]
  | cons d ds ih =>
    simp only [assignAll, List.foldl_cons] at ih ⊢
    rw [ih]; simp [KitchenStation.assignDishToStation]

theorem replenishFrom_name (s : KitchenStation) (l : List Ingredient) :
    (replenishFrom s l).name = s.name := by
  induction l generalizing s with
  | nil => rfl
  | cons x l ih =>
    simp only [replenishFrom, List.foldl_cons] at ih ⊢
    rw [ih]; rfl

theorem replenishFrom_dishes (s : KitchenStation) (l : List Ingredient) :
    (replenishFrom s l).dishes = s.dishes := by
  induction l generalizing s with
  | nil => rfl
  | cons x l ih =>
    simp only [replenishFrom, List.foldl_cons] at ih ⊢
    rw [ih]; rfl

theorem replenishFrom_stock (s : KitchenStation) (l : List Ingredient) :
    (replenishFrom s l).ingredients_stock = l.foldl addToStock s.ingredients_stock := by
  induction l generalizing s with
  | nil => rfl
  | cons x l ih =>
    simp only [replenishFrom, List.foldl_cons] at ih ⊢
    rw [ih]; rfl

theorem stockTotal_addToStock (stock : List Ingredient) (x : Ingredient) (n : String) :
    stockTotal (addToStock stock x) n
      = stockTotal stock n + (if x.name = n then x.quantity else 0) := by
  induction stock with
  | nil => simp [addToStock, stockTotal]
  | cons a stock ih =>
    by_cases h : a.name = x.name
    · by_cases hn : x.name = n
      · have han : a.name = n := h.trans hn
        simp only [addToStock, h, if_true, stockTotal, hn]
        omega
      · have han : ¬ a.name = n := fun e => hn (h ▸ e)
        simp only [addToStock, h, if_true, stockTotal, hn, if_false]
        omega
    · simp only [addToStock, h, if_false, stockTotal, ih]
      omega

theorem stockTotal_foldl (l stock : List Ingredient) (n : String) :
    stockTotal (l.foldl addToStock stock) n = stockTotal stock n + stockTotal l n := by
  induction l generalizing stock with
  | nil => simp [stockTotal]
  | cons x l ih =>
    simp only [List.foldl_cons, ih, stockTotal_addToStock, stockTotal]
    omega

theorem stockQuantity_addToStock (stock : List Ingredient) (x : Ingredient) (n : String) :
    stockQuantity (addToStock stock x) n
      = stockQuantity stock n + (if x.name = n then x.quantity else 0) := by
  by_cases hn : x.name = n
  · have := stockQuantity_addToStock_same stock x.name x.quantity
    rw [hn] at this
    have e : x = { name := n, quantity := x.quantity } := by
      cases x; simp only at hn; simp [hn]
    rw [if_pos hn]
    rw [e]; exact this
  · have := stockQuantity_addToStock_other stock x.name n x.quantity (fun e => hn e.symm)
    rw [if_neg hn, this]; simp

theorem stockQuantity_foldl (l stock : List Ingredient) (n : String) :
    stockQuantity (l.foldl addToStock stock) n = stockQuantity stock n + stockTotal l n := by
  induction l generalizing stock with
  | nil => simp [stockTotal]
  | cons x l ih =>
    simp only [List.foldl_cons, ih, stockQuantity_addToStock, stockTotal]
    omega

theorem stockTotal_absent (l : List Ingredient) (n : String)
    (h : n ∉ ingredientNames l) : stockTotal l n = 0 := by
  induction l with
  | nil => rfl
  | cons a l ih =>
    simp only [ingredientNames, List.map_cons, List.mem_cons, not_or] at h
    have hl : n ∉ ingredientNames l := h.2
    have ha : ¬ a.name = n := fun e => h.1 e.symm
    simp only [stockTotal, ha, if_false, ih hl]
    rfl

theorem stockTotal_eq_stockQuantity (l : List Ingredient) (n : String)
    (h : (ingredientNames l).Nodup) : stockTotal l n = stockQuantity l n := by
  induction l with
  | nil => rfl
  | cons a l ih =>
    simp only [ingredientNames, List.map_cons, List.nodup_cons] at h
    by_cases ha : a.name = n
    · have hl : n ∉ ingredientNames l := ha ▸ h.1
      simp only [stockTotal, stockQuantity, ha, if_true, stockTotal_absent l n hl]
      omega
    · simp only [stockTotal, stockQuantity, ha, if_false, ih h.2]
      omega

namespace StationManager

theorem findStation_split (m : StationManager) (n : String)
    (pre post : List KitchenStation) (s : KitchenStation)
    (h : FirstStation m.stations pre s post n) : m.findStation n = some pre.length :=
  (findIf_eq_some _ _ _).2 ⟨pre, s, post, h.1, rfl, by simpa using h.2.2,
    fun y hy => by simpa using h.2.1 y hy⟩

theorem findStation_absent (m : StationManager) (n : String)
    (h : ∀ s ∈ m.stations, s.name ≠ n) : m.findStation n = none :=
  (findIf_eq_none _ _).2 (fun x hx => by simpa using h x hx)

/-- Source `removeStation` takes out the first station of the name. -/
theorem removeStation_split (m : StationManager) (n : String)
    (pre post : List KitchenStation) (s : KitchenStation)
    (h : FirstStation m.stations pre s post n) :
    m.removeStation n = (true, { m with stations := pre ++ post }) := by
  have hf := findStation_split m n pre post s h
  unfold findStation at hf
  have hlt : pre.length < m.stations.length := by rw [h.1]; simp
  simp only [removeStation, hf]
  rw [remove_valid m _ hlt, h.1, eraseIdx_append_cons]

theorem removeStation_absent (m : StationManager) (n : String)
    (h : ∀ s ∈ m.stations, s.name ≠ n) : m.removeStation n = (false, m) := by
  have hf := findStation_absent m n h
  unfold findStation at hf
  simp only [removeStation, hf]

theorem moveStationToFront_absent (m : StationManager) (n : String)
    (h : ∀ s ∈ m.stations, s.name ≠ n) : m.moveStationToFront n = (false, m) := by
  simp only [moveStationToFront, findStation_absent m n h]

theorem mergeStations_absent (m : StationManager) (a b : String)
    (h : (∀ s ∈ m.stations, s.name ≠ a) ∨ (∀ s ∈ m.stations, s.name ≠ b)) :
    m.mergeStations a b = (false, m) := by
  unfold mergeStations
  rcases h with h | h
  · rw [findStation_absent m a h]
  · rw [findStation_absent m b h]
    cases m.findStation a <;> rfl

/-- Source `mergeStations` with both stations found: one write to the first station, then
the removal of the second name. -/
theorem mergeStations_eval (m : StationManager) (a b : String) (p1 p2 : Nat)
    (s2 : KitchenStation) (h1 : m.findStation a = some p1) (h2 : m.findStation b = some p2)
    (hg : m.stations.get? p2 = some s2) :
    m.mergeStations a b =
      (true, (StationManager.removeStation
        { m with
          stations := modifyAt
            (fun s => replenishFrom (assignAll s s2.dishes) s2.ingredients_stock)
            p1 m.stations } b).2) := by
  have e1 : s2.dishes.foldl
      (fun l dish => modifyAt (fun s => (s.assignDishToStation dish).2) p1 l) m.stations
      = modifyAt (fun s => assignAll s s2.dishes) p1 m.stations :=
    foldl_modifyAt (fun dish s => (s.assignDishToStation dish).2) p1 s2.dishes m.stations
  have e2 : ∀ l : List KitchenStation, s2.ingredients_stock.foldl
      (fun l ingredient =>
        modifyAt (fun s => s.replenishStationIngredients ingredient) p1 l) l
      = modifyAt (fun s => replenishFrom s s2.ingredients_stock) p1 l :=
    fun l => foldl_modifyAt (fun ingredient s => s.replenishStationIngredients ingredient)
      p1 s2.ingredients_stock l
  have hg2 : ∃ s2', (modifyAt (fun s => assignAll s s2.dishes) p1 m.stations).get? p2
        = some s2' ∧ s2'.ingredients_stock = s2.ingredients_stock := by
    rw [modifyAt_get?, hg]
    by_cases hp : p1 = p2
    · exact ⟨_, by simp [hp], assignAll_stock s2 s2.dishes⟩
    · exact ⟨s2, by simp [hp], rfl⟩
  obtain ⟨s2', hs2', hstock⟩ := hg2
  unfold mergeStations
  simp only [h1, h2, hg, e1, hs2', hstock, e2, modifyAt_modifyAt]

/-- The station that `mergeStations` leaves in place of the first station: the dishes of
the second one assigned to it, then the stock of the second one added into its stock. -/
theorem merged_station (s1 s2 : KitchenStation) :
    (replenishFrom (assignAll s1 s2.dishes) s2.ingredients_stock).name = s1.name ∧
    (replenishFrom (assignAll s1 s2.dishes) s2.ingredients_stock).dishes
      = s1.dishes ++ s2.dishes ∧
    (∀ n, stockTotal (replenishFrom (assignAll s1 s2.dishes)
        s2.ingredients_stock).ingredients_stock n
      = stockTotal s1.ingredients_stock n + stockTotal s2.ingredients_stock n) ∧
    ((ingredientNames s2.ingredients_stock).Nodup →
      ∀ n, stockQuantity (replenishFrom (assignAll s1 s2.dishes)
          s2.ingredients_stock).ingredients_stock n
        = stockQuantity s1.ingredients_stock n + stockQuantity s2.ingredients_stock n) := by
  refine ⟨?_, ?_, ?_, ?_⟩
  · rw [replenishFrom_name, assignAll_name]
  · rw [replenishFrom_dishes, assignAll_dishes]
  · intro n
    rw [replenishFrom_stock, assignAll_stock, stockTotal_foldl]
  · intro hnd n
    rw [replenishFrom_stock, assignAll_stock, stockQuantity_foldl,
      stockTotal_eq_stockQuantity _ _ hnd]

/-- Merging a station into itself: the station is written to and then removed. -/
theorem mergeStations_same (m : StationManager) (n : String)
    (pre post : List KitchenStation) (s : KitchenStation)
    (h : FirstStation m.stations pre s post n) :
    m.mergeStations n n = (true, { m with stations := pre ++ post }) := by
  have hf := findStation_split m n pre post s h
  have hg : m.stations.get? pre.length = some s := by
    rw [h.1]; exact get?_append_cons _ _ _
  rw [mergeStations_eval m n n _ _ s hf hf hg]
  have hs : FirstStation
      (modifyAt (fun s' => replenishFrom (assignAll s' s.dishes) s.ingredients_stock)
        pre.length m.stations)
      pre (replenishFrom (assignAll s s.dishes) s.ingredients_stock) post n := by
    refine ⟨?_, h.2.1, ?_⟩
    · rw [h.1, modifyAt_append_cons]
    · rw [(merged_station s s).1]; exact h.2.2
  rw [removeStation_split _ n pre post _ hs]

/-- Merging when the first station of the first name stands before the first station of
the second name. -/
theorem mergeStations_before (m : StationManager) (x y : String)
    (a b c : List KitchenStation) (sx sy : KitchenStation)
    (hs : m.stations = a ++ sx :: (b ++ sy :: c))
    (hax : ∀ t ∈ a, t.name ≠ x) (hsx : sx.name = x)
    (hay : ∀ t ∈ a ++ sx :: b, t.name ≠ y) (hsy : sy.name = y) :
    m.mergeStations x y = (true,
      { m with
        stations :=
          a ++ replenishFrom (assignAll sx sy.dishes) sy.ingredients_stock :: (b ++ c) }) := by
  have hs' : m.stations = (a ++ sx :: b) ++ sy :: c := by rw [hs]; simp
  have h1 := findStation_split m x a (b ++ sy :: c) sx ⟨hs, hax, hsx⟩
  have h2 := findStation_split m y (a ++ sx :: b) c sy ⟨hs', hay, hsy⟩
  have hg : m.stations.get? (a ++ sx :: b).length = some sy := by
    rw [hs']; exact get?_append_cons _ _ _
  rw [mergeStations_eval m x y _ _ sy h1 h2 hg]
  have hxy : x ≠ y := fun e => hay sx (by simp) (hsx.trans e)
  have hrem : FirstStation
      (modifyAt (fun s' => replenishFrom (assignAll s' sy.dishes) sy.ingredients_stock)
        a.length m.stations)
      (a ++ replenishFrom (assignAll sx sy.dishes) sy.ingredients_stock :: b) sy c y := by
    refine ⟨?_, ?_, hsy⟩
    · rw [hs, modifyAt_append_cons]; simp
    · intro t ht
      rcases List.mem_append.1 ht with ht | ht
      · exact hay t (List.mem_append_left _ ht)
      · rcases List.mem_cons.1 ht with rfl | ht
        · rw [(merged_station sx sy).1, hsx]; exact hxy
        · exact hay t (List.mem_append_right _ (List.mem_cons_of_mem _ ht))
  rw [removeStation_split _ y _ c sy hrem]
  simp

/-- Merging when the first station of the second name stands before the first station of
the first name. -/
theorem mergeStations_after (m : StationManager) (x y : String)
    (a b c : List KitchenStation) (sx sy : KitchenStation)
    (hs : m.stations = a ++ sy :: (b ++ sx :: c))
    (hay : ∀ t ∈ a, t.name ≠ y) (hsy : sy.name = y)
    (hax : ∀ t ∈ a ++ sy :: b, t.name ≠ x) (hsx : sx.name = x) :
    m.mergeStations x y = (true,
      { m with
        stations :=
          a ++ (b ++ replenishFrom (assignAll sx sy.dishes) sy.ingredients_stock :: c) }) := by
  have hs' : m.stations = (a ++ sy :: b) ++ sx :: c := by rw [hs]; simp
  have h1 := findStation_split m x (a ++ sy :: b) c sx ⟨hs', hax, hsx⟩
  have h2 := findStation_split m y a (b ++ sx :: c) sy ⟨hs, hay, hsy⟩
  have hg : m.stations.get? a.length = some sy := by
    rw [hs]; exact get?_append_cons _ _ _
  rw [mergeStations_eval m x y _ _ sy h1 h2 hg]
  have hrem : FirstStation
      (modifyAt (fun s' => replenishFrom (assignAll s' sy.dishes) sy.ingredients_stock)
        (a ++ sy :: b).length m.stations)
      a sy (b ++ replenishFrom (assignAll sx sy.dishes) sy.ingredients_stock :: c) y := by
    refine ⟨?_, hay, hsy⟩
    rw [hs', modifyAt_append_cons]; simp
  rw [removeStation_split _ y a _ sy hrem]

end StationManager

/-- Two splits of one list at elements that differ: one of them lies in the front part
of the other. -/
theorem two_splits {α : Type} (pre1 post1 pre2 post2 : List α) (x1 x2 : α) (hne : x1 ≠ x2)
    (h : pre1 ++ x1 :: post1 = pre2 ++ x2 :: post2) :
    (∃ b, pre2 = pre1 ++ x1 :: b ∧ post1 = b ++ x2 :: post2) ∨
    (∃ b, pre1 = pre2 ++ x2 :: b ∧ post2 = b ++ x1 :: post1) := by
  rcases List.append_eq_append_iff.1 h with ⟨a', h1, h2⟩ | ⟨c', h1, h2⟩
  · cases a' with
    | nil => simp at h2; exact absurd h2.1 hne
    | cons z b =>
      simp at h2
      left
      exact ⟨b, by rw [h1, h2.1], h2.2⟩
  · cases c' with
    | nil => simp at h2; exact absurd h2.1.symm hne
    | cons z b =>
      simp at h2
      right
      exact ⟨b, by rw [h1, h2.1], h2.2⟩

theorem names_after_split (pre post : List KitchenStation) (s : KitchenStation)
    (h : (stationNames (pre ++ s :: post)).Nodup) : ∀ t ∈ post, t.name ≠ s.name := by
  intro t ht e
  simp only [stationNames, List.map_append, List.map_cons] at h
  have h2 := (List.nodup_append.1 h).2.1
  have h3 := (List.nodup_cons.1 h2).1
  exact h3 (e ▸ List.mem_map_of_mem (fun s => s.name) ht)

/-- C11 as stated fails.  With the same name for both arguments the station is removed:
the registry [X] contains stations named X and X, the call returns true, and afterwards
no station named X is left to hold the merged dishes and stock.  And with two stations
named Y only the first one is removed, so Y still appears in the registry. -/
theorem mergeStations_counterexample :
    ((∃ s ∈ (registry [stocked "X"]).stations, s.name = "X") ∧
      (registry [stocked "X"]).mergeStations "X" "X" = (true, registry []) ∧
      ¬ ∃ s ∈ ((registry [stocked "X"]).mergeStations "X" "X").2.stations, s.name = "X") ∧
    ((∃ s ∈ (registry [bare "X", bare "Y", stocked "Y"]).stations, s.name = "X") ∧
      (∃ s ∈ (registry [bare "X", bare "Y", stocked "Y"]).stations, s.name = "Y") ∧
      (registry [bare "X", bare "Y", stocked "Y"]).mergeStations "X" "Y"
        = (true, registry [bare "X", stocked "Y"]) ∧
      ∃ s ∈ ((registry [bare "X", bare "Y", stocked "Y"]).mergeStations "X" "Y").2.stations,
        s.name = "Y") := by
  refine ⟨⟨⟨stocked "X", by decide, rfl⟩, by decide, by decide⟩,
    ⟨bare "X", by decide, rfl⟩, ⟨bare "Y", by decide, rfl⟩, by decide,
    ⟨stocked "Y", by decide, rfl⟩⟩

/-- C11, amended: for every registry containing stations named X and Y with X different
from Y, mergeStations(X, Y) returns true; the first station named X then has its
original dishes followed by the dishes of the first station named Y, in order and with
duplicates, and holds for each ingredient name the sum of the two original quantities;
the first station named Y is removed and all other stations keep their relative order;
when station names are unique no station named Y is left.  Queue and backup pool are
untouched. -/
theorem mergeStations_distinct (m : StationManager) (X Y : String) (hxy : X ≠ Y)
    (hx : ∃ s ∈ m.stations, s.name = X) (hy : ∃ s ∈ m.stations, s.name = Y) :
    ∃ sx sy sx',
      (∃ pre post, FirstStation m.stations pre sx post X) ∧
      (∃ pre post, FirstStation m.stations pre sy post Y) ∧
      (m.mergeStations X Y).1 = true ∧
      sx'.name = X ∧
      sx'.dishes = sx.dishes ++ sy.dishes ∧
      (∀ n, stockTotal sx'.ingredients_stock n
        = stockTotal sx.ingredients_stock n + stockTotal sy.ingredients_stock n) ∧
      ((ingredientNames sy.ingredients_stock).Nodup →
        ∀ n, stockQuantity sx'.ingredients_stock n
          = stockQuantity sx.ingredients_stock n + stockQuantity sy.ingredients_stock n) ∧
      ((∃ a b c, m.stations = a ++ sx :: (b ++ sy :: c) ∧
          (∀ t ∈ a, t.name ≠ X) ∧ (∀ t ∈ a ++ sx :: b, t.name ≠ Y) ∧
          (m.mergeStations X Y).2.stations = a ++ sx' :: (b ++ c)) ∨
       (∃ a b c, m.stations = a ++ sy :: (b ++ sx :: c) ∧
          (∀ t ∈ a, t.name ≠ Y) ∧ (∀ t ∈ a ++ sy :: b, t.name ≠ X) ∧
          (m.mergeStations X Y).2.stations = a ++ (b ++ sx' :: c))) ∧
      ((stationNames m.stations).Nodup →
        ∀ t ∈ (m.mergeStations X Y).2.stations, t.name ≠ Y) ∧
      (m.mergeStations X Y).2.dish_queue_ = m.dish_queue_ ∧
      (m.mergeStations X Y).2.backup_ingredients_ = m.backup_ingredients_ := by
  rcases StationManager.first_split (fun s : KitchenStation => s.name = X) m.stations with
    hn | ⟨preX, sx, postX, hsX, hpreX, hsx⟩
  · obtain ⟨s, hs, hsn⟩ := hx
    exact absurd hsn (hn s hs)
  rcases StationManager.first_split (fun s : KitchenStation => s.name = Y) m.stations with
    hn | ⟨preY, sy, postY, hsY, hpreY, hsy⟩
  · obtain ⟨s, hs, hsn⟩ := hy
    exact absurd hsn (hn s hs)
  have hne : sx ≠ sy := fun e => hxy (by rw [← hsx, ← hsy, e])
  obtain ⟨hname, hdishes, htotal, hquant⟩ := StationManager.merged_station sx sy
  refine ⟨sx, sy, replenishFrom (assignAll sx sy.dishes) sy.ingredients_stock,
    ⟨preX, postX, hsX, hpreX, hsx⟩, ⟨preY, postY, hsY, hpreY, hsy⟩, ?_⟩
  rcases two_splits preX postX preY postY sx sy hne (hsX ▸ hsY) with
    ⟨b, hpre, hpost⟩ | ⟨b, hpre, hpost⟩
  · have hs : m.stations = preX ++ sx :: (b ++ sy :: postY) := by rw [hsX, hpost]
    have hay : ∀ t ∈ preX ++ sx :: b, t.name ≠ Y := hpre ▸ hpreY
    have hr := StationManager.mergeStations_before m X Y preX b postY sx sy hs hpreX hsx hay hsy
    refine ⟨by rw [hr], hname.trans hsx, hdishes, htotal, hquant,
      Or.inl ⟨preX, b, postY, hs, hpreX, hay, by rw [hr]⟩, ?_, by rw [hr], by rw [hr]⟩
    intro hnd t ht
    rw [hr] at ht
    have hs' : m.stations = (preX ++ sx :: b) ++ sy :: postY := by rw [hs]; simp
    have hlate := names_after_split (preX ++ sx :: b) postY sy (hs' ▸ hnd)
    simp only [List.mem_append, List.mem_cons] at ht
    rcases ht with ht | rfl | ht | ht
    · exact hay t (List.mem_append_left _ ht)
    · rw [hname, hsx]; exact hxy
    · exact hay t (List.mem_append_right _ (List.mem_cons_of_mem _ ht))
    · rw [← hsy]; exact hlate t ht
  · have hs : m.stations = preY ++ sy :: (b ++ sx :: postX) := by rw [hsY, hpost]
    have hax : ∀ t ∈ preY ++ sy :: b, t.name ≠ X := hpre ▸ hpreX
    have hr := StationManager.mergeStations_after m X Y preY b postX sx sy hs hpreY hsy hax hsx
    refine ⟨by rw [hr], hname.trans hsx, hdishes, htotal, hquant,
      Or.inr ⟨preY, b, postX, hs, hpreY, hax, by rw [hr]⟩, ?_, by rw [hr], by rw [hr]⟩
    intro hnd t ht
    rw [hr] at ht
    have hlate := names_after_split preY (b ++ sx :: postX) sy (hs ▸ hnd)
    simp only [List.mem_append, List.mem_cons] at ht
    rcases ht with ht | ht | rfl | ht
    · exact hpreY t ht
    · rw [← hsy]; exact hlate t (List.mem_append_left _ ht)
    · rw [hname, hsx]; exact hxy
    · rw [← hsy]; exact hlate t (List.mem_append_right _ (List.mem_cons_of_mem _ ht))

/-- Witness for C11: X holding DishA and 1 Flour, an unrelated station Z, and Y holding
DishA and 1 Flour. -/
theorem mergeStations_distinct_witness :
    ("X" : String) ≠ "Y" ∧
    (∃ s ∈ (registry [stocked "X", bare "Z", stocked "Y"]).stations, s.name = "X") ∧
    (∃ s ∈ (registry [stocked "X", bare "Z", stocked "Y"]).stations, s.name = "Y") ∧
    ((registry [stocked "X", bare "Z", stocked "Y"]).mergeStations "X" "Y").1 = true ∧
    ∃ sx sy sx' : KitchenStation,
      (∃ pre post,
        FirstStation (registry [stocked "X", bare "Z", stocked "Y"]).stations pre sx post "X") ∧
      (∃ pre post,
        FirstStation (registry [stocked "X", bare "Z", stocked "Y"]).stations pre sy post "Y") ∧
      sx'.name = "X" ∧ sx'.dishes = sx.dishes ++ sy.dishes := by
  refine ⟨by decide, ⟨stocked "X", by decide, rfl⟩, ⟨stocked "Y", by decide, rfl⟩,
    by decide, ?_⟩
  obtain ⟨sx, sy, sx', h1, h2, _, h4, h5, _⟩ :=
    mergeStations_distinct (registry [stocked "X", bare "Z", stocked "Y"]) "X" "Y"
      (by decide) ⟨stocked "X", by decide, rfl⟩ ⟨stocked "Y", by decide, rfl⟩
  exact ⟨sx, sy, sx', h1, h2, h4, h5⟩

/-- C12: NotFound is a no-op.  For every manager state and every name that matches no
station, removeStation and moveStationToFront return false, and mergeStations returns
false whenever one of its two names matches no station; in each case the state returned
is the state given: registry membership and order, every station's dishes and stock. -/
theorem notFound_is_noop (m : StationManager) (n a b : String)
    (hn : ∀ s ∈ m.stations, s.name ≠ n)
    (hab : (∀ s ∈ m.stations, s.name ≠ a) ∨ (∀ s ∈ m.stations, s.name ≠ b)) :
    m.removeStation n = (false, m) ∧ m.moveStationToFront n = (false, m) ∧
    m.mergeStations a b = (false, m) :=
  ⟨StationManager.removeStation_absent m n hn, StationManager.moveStationToFront_absent m n hn,
   StationManager.mergeStations_absent m a b hab⟩

/-- Witness for C12: the registry [X, Z] has no station named Q. -/
theorem notFound_is_noop_witness :
    (∀ s ∈ (registry [stocked "X", bare "Z"]).stations, s.name ≠ "Q") ∧
    (registry [stocked "X", bare "Z"]).removeStation "Q"
      = (false, registry [stocked "X", bare "Z"]) ∧
    (registry [stocked "X", bare "Z"]).moveStationToFront "Q"
      = (false, registry [stocked "X", bare "Z"]) ∧
    (registry [stocked "X", bare "Z"]).mergeStations "X" "Q"
      = (false, registry [stocked "X", bare "Z"]) :=
  ⟨by decide,
   notFound_is_noop (registry [stocked "X", bare "Z"]) "Q" "X" "Q" (by decide)
     (Or.inr (by decide))⟩

/-! ## The backup pool across the operations -/

theorem mem_backupAfter (pre post : List Ingredient) (e x : Ingredient) (q : Int)
    (h : x ∈ StationManager.backupAfter pre e post q) :
    x ∈ pre ∨ x ∈ post ∨
      (x = { name := e.name, quantity := e.quantity - q } ∧ e.quantity - q ≠ 0) := by
  unfold StationManager.backupAfter at h
  by_cases hz : e.quantity - q = 0
  · rw [if_pos hz] at h
    rcases List.mem_append.1 h with h | h
    · exact Or.inl h
    · exact Or.inr (Or.inl h)
  · rw [if_neg hz] at h
    rcases List.mem_append.1 h with h | h
    · exact Or.inl h
    · rcases List.mem_cons.1 h with h | h
      · exact Or.inr (Or.inr ⟨h, hz⟩)
      · exact Or.inr (Or.inl h)

theorem names_backupAfter (pre post : List Ingredient) (e : Ingredient) (q : Int) :
    (ingredientNames (StationManager.backupAfter pre e post q)).Sublist
      (ingredientNames (pre ++ e :: post)) := by
  unfold StationManager.backupAfter ingredientNames
  by_cases hz : e.quantity - q = 0
  · rw [if_pos hz]
    simp only [List.map_append, List.map_cons]
    exact (List.Sublist.refl _).append (List.sublist_cons_self _ _)
  · rw [if_neg hz]
    simp only [List.map_append, List.map_cons]
    exact List.Sublist.refl _

namespace StationManager

/-- The pool after `replenishStationIngredientFromBackup`: as before, or with the amount
taken out of the first entry of the name. -/
theorem replenish_pool (m : StationManager) (sn inn : String) (q : Int) :
    (m.replenishStationIngredientFromBackup sn inn q).2.backup_ingredients_
        = m.backup_ingredients_ ∨
    ∃ pre e post, m.backup_ingredients_ = pre ++ e :: post ∧ q ≤ e.quantity ∧
      (m.replenishStationIngredientFromBackup sn inn q).2.backup_ingredients_
        = backupAfter pre e post q := by
  rcases replenish_cases m sn inn q with ⟨hf, _⟩ | ⟨pre, e, post, _, _, _, hb, hq, _, hr⟩
  · left; rw [hf]
  · right; exact ⟨pre, e, post, hb.1, hq, by rw [hr]⟩

theorem replenish_keeps_nonneg (m : StationManager) (sn inn : String) (q : Int)
    (h : ∀ e ∈ m.backup_ingredients_, 0 ≤ e.quantity) :
    ∀ e ∈ (m.replenishStationIngredientFromBackup sn inn q).2.backup_ingredients_,
      0 ≤ e.quantity := by
  rcases replenish_pool m sn inn q with he | ⟨pre, e, post, hb, hq, hr⟩
  · rw [he]; exact h
  · rw [hr]
    intro x hx
    rcases mem_backupAfter pre post e x q hx with hx | hx | ⟨rfl, _⟩
    · exact h x (by rw [hb]; simp [hx])
    · exact h x (by rw [hb]; simp [hx])
    · show 0 ≤ e.quantity - q
      omega

theorem replenish_keeps_positive (m : StationManager) (sn inn : String) (q : Int)
    (h : ∀ e ∈ m.backup_ingredients_, 0 < e.quantity) :
    ∀ e ∈ (m.replenishStationIngredientFromBackup sn inn q).2.backup_ingredients_,
      0 < e.quantity := by
  rcases replenish_pool m sn inn q with he | ⟨pre, e, post, hb, hq, hr⟩
  · rw [he]; exact h
  · rw [hr]
    intro x hx
    rcases mem_backupAfter pre post e x q hx with hx | hx | ⟨rfl, hz⟩
    · exact h x (by rw [hb]; simp [hx])
    · exact h x (by rw [hb]; simp [hx])
    · show 0 < e.quantity - q
      omega

theorem replenish_keeps_nodup (m : StationManager) (sn inn : String) (q : Int)
    (h : (ingredientNames m.backup_ingredients_).Nodup) :
    (ingredientNames
      (m.replenishStationIngredientFromBackup sn inn q).2.backup_ingredients_).Nodup := by
  rcases replenish_pool m sn inn q with he | ⟨pre, e, post, hb, hq, hr⟩
  · rw [he]; exact h
  · rw [hr]
    exact (names_backupAfter pre post e q).nodup (hb ▸ h)

/-- The pool after one loop body of the scan: as before, or as the replenishment loop
left it. -/
theorem attemptStation_pool (dish : Dish) (i : Nat) (st : KitchenStation)
    (m : StationManager) :
    (attemptStation dish i st m).2.backup_ingredients_ = m.backup_ingredients_ ∨
    (attemptStation dish i st m).2.backup_ingredients_ =
      ((m.setStation i (st.prepareDish dish.name).2).replenishAll
        (st.prepareDish dish.name).2.name dish.ingredients).2.backup_ingredients_ := by
  unfold attemptStation
  by_cases hc : st.canPrepare dish = true
  · simp only [hc, if_true]
    by_cases h1 : (st.prepareDish dish.name).1 = true
    · simp only [h1, if_true]
      left; rfl
    · simp only [h1, Bool.false_eq_true, if_false]
      right
      by_cases h2 : ((m.setStation i (st.prepareDish dish.name).2).replenishAll
          (st.prepareDish dish.name).2.name dish.ingredients).1 = true
      · simp only [h2, if_true]
        cases ((m.setStation i (st.prepareDish dish.name).2).replenishAll
            (st.prepareDish dish.name).2.name dish.ingredients).2.stations.get? i with
        | none => rfl
        | some st1 =>
          by_cases h4 : (st1.prepareDish dish.name).1 = true
          · simp only [h4, if_true]; rfl
          · simp only [h4, Bool.false_eq_true, if_false]; rfl
      · simp only [h2, Bool.false_eq_true, if_false]
  · simp only [hc, Bool.false_eq_true, if_false]
    left; trivial

/-- A property of the pool kept by every single replenishment is kept by
`prepareNextDish`. -/
theorem prepareNextDish_pool (P : List Ingredient → Prop)
    (hP : ∀ (m : StationManager) (sn inn : String) (q : Int), P m.backup_ingredients_ →
      P (m.replenishStationIngredientFromBackup sn inn q).2.backup_ingredients_)
    (m : StationManager) (h : P m.backup_ingredients_) :
    P m.prepareNextDish.2.backup_ingredients_ := by
  have hattempt : ∀ (dish : Dish) (i : Nat) (st : KitchenStation) (m : StationManager),
      P m.backup_ingredients_ → P (attemptStation dish i st m).2.backup_ingredients_ := by
    intro dish i st m hm
    rcases attemptStation_pool dish i st m with e | e
    · rw [e]; exact hm
    · rw [e]
      exact replenishAll_inv (fun x => P x.backup_ingredients_) hP _ _ _ hm
  have hscan : ∀ (dish : Dish) (fuel i : Nat) (m : StationManager),
      P m.backup_ingredients_ → P (scanStations dish fuel i m).2.backup_ingredients_ := by
    intro dish fuel
    induction fuel with
    | zero => intro i m hm; exact hm
    | succ fuel ih =>
      intro i m hm
      cases hg : m.stations.get? i with
      | none => rw [scanStations_none dish _ i m hg]; exact hm
      | some st =>
        by_cases hr : (attemptStation dish i st m).1 = true
        · rw [scanStations_hit dish fuel i m st hg hr]
          exact hattempt dish i st m hm
        · have hr' : (attemptStation dish i st m).1 = false := by simpa using hr
          rw [scanStations_miss dish fuel i m st hg hr']
          exact ih (i + 1) _ (hattempt dish i st m hm)
  unfold prepareNextDish
  cases m.dish_queue_ with
  | nil => exact h
  | cons d rest => exact hscan d _ 0 m h

/-- A property of the pool kept by every single replenishment is kept by the loop of
`processAllDishes`. -/
theorem processLoop_pool (P : List Ingredient → Prop)
    (hP : ∀ (m : StationManager) (sn inn : String) (q : Int), P m.backup_ingredients_ →
      P (m.replenishStationIngredientFromBackup sn inn q).2.backup_ingredients_)
    (n : Nat) : ∀ (m : StationManager) (out : List Attempt × StationManager),
      processLoop n m = some out → P m.backup_ingredients_ →
      P out.2.backup_ingredients_ := by
  induction n with
  | zero =>
    intro m out ho hm
    simp only [processLoop, Option.some.injEq] at ho
    rw [← ho]; exact hm
  | succ n ih =>
    intro m out ho hm
    have hnext := prepareNextDish_pool P hP m hm
    simp only [processLoop] at ho
    by_cases hr : m.prepareNextDish.1 = true
    · simp only [hr, if_true, Option.map_eq_some'] at ho
      obtain ⟨out', ho', rfl⟩ := ho
      exact ih _ out' ho' hnext
    · simp only [hr, Bool.false_eq_true, if_false] at ho
      cases hq : m.prepareNextDish.2.dish_queue_ with
      | nil => rw [hq] at ho; exact absurd ho (by simp)
      | cons d rest =>
        rw [hq] at ho
        simp only [Option.map_eq_some'] at ho
        obtain ⟨out', ho', rfl⟩ := ho
        exact ih _ out' ho' hnext

/-- A property of the pool that the adding operations establish and every replenishment
keeps holds in every reachable state. -/
theorem poolReachable_inv (okList : List Ingredient → Prop) (okOne : Ingredient → Prop)
    (P : List Ingredient → Prop) (hnil : P [])
    (hList : ∀ l, okList l → P l)
    (hOne : ∀ (m : StationManager) (x : Ingredient), okOne x → P m.backup_ingredients_ →
      P (m.addBackupIngredient x).2.backup_ingredients_)
    (hP : ∀ (m : StationManager) (sn inn : String) (q : Int), P m.backup_ingredients_ →
      P (m.replenishStationIngredientFromBackup sn inn q).2.backup_ingredients_)
    (m : StationManager) (h : PoolReachable okList okOne m) : P m.backup_ingredients_ := by
  induction h with
  | start => exact hnil
  | step m m' _ hstep ih =>
    cases hstep with
    | addBackupIngredients l hl => exact hList l hl
    | addBackupIngredient x hx => exact hOne m x hx ih
    | clearBackupIngredients => exact hnil
    | replenishStationIngredientFromBackup sn inn q => exact hP m sn inn q ih
    | prepareNextDish => exact prepareNextDish_pool P hP m ih
    | processAllDishes _ ho =>
      simp only [processAllDishes, processAllDishesLog, Option.map_eq_some'] at ho
      obtain ⟨out, ho, rfl⟩ := ho
      exact processLoop_pool P hP _ m out ho ih
    | other _ he => rw [he]; exact ih

/-- Inside the range of `int` the wrap-around changes nothing. -/
theorem wrapInt32_of_fits (z : Int) (h : fitsInt32 z) : wrapInt32 z = z := by
  unfold fitsInt32 at h
  unfold wrapInt32
  omega

/-- The wrapped value is always one that an `int` can hold. -/
theorem fitsInt32_wrapInt32 (z : Int) : fitsInt32 (wrapInt32 z) := by
  unfold fitsInt32 wrapInt32
  omega

/-- Source `addBackupIngredient` when the pool has an entry of the name: the quantity is
added onto the first such entry. -/
theorem addBackupIngredient_found (m : StationManager) (x : Ingredient)
    (pre post : List Ingredient) (e : Ingredient)
    (h : FirstNamed m.backup_ingredients_ pre e post x.name) :
    m.addBackupIngredient x = (true, { m with backup_ingredients_ :=
      pre ++ { name := e.name, quantity := wrapInt32 (e.quantity + x.quantity) } :: post }) := by
  have hf : findIf (fun ingr => decide (ingr.name = x.name)) m.backup_ingredients_
      = some pre.length :=
    (findIf_eq_some _ _ _).2 ⟨pre, e, post, h.1, rfl, by simpa using h.2.2,
      fun y hy => by simpa using h.2.1 y hy⟩
  simp only [addBackupIngredient, hf]
  rw [h.1, modifyAt_append_cons]

/-- Source `addBackupIngredient` when the pool has no entry of the name: the ingredient is
appended. -/
theorem addBackupIngredient_absent (m : StationManager) (x : Ingredient)
    (h : ∀ e ∈ m.backup_ingredients_, e.name ≠ x.name) :
    m.addBackupIngredient x
      = (true, { m with backup_ingredients_ := m.backup_ingredients_ ++ [x] }) := by
  have hf : findIf (fun ingr => decide (ingr.name = x.name)) m.backup_ingredients_ = none :=
    (findIf_eq_none _ _).2 (fun y hy => by simpa using h y hy)
  simp only [addBackupIngredient, hf]

/-- A property kept by every replenishment of a quantity >= 0 is kept by the
replenishment loop over requirements that are >= 0. -/
theorem replenishAll_inv_nonneg (P : StationManager → Prop)
    (hP : ∀ (m : StationManager) (sn inn : String) (q : Int), 0 ≤ q →
      P m → P (m.replenishStationIngredientFromBackup sn inn q).2)
    (m : StationManager) (sn : String) (l : List Ingredient)
    (hl : ∀ x ∈ l, 0 ≤ x.quantity) (h : P m) :
    P (m.replenishAll sn l).2 := by
  induction l generalizing m with
  | nil => simpa [replenishAll_nil] using h
  | cons x l ih =>
    rw [replenishAll_cons]
    exact ih _ (fun y hy => hl y (List.mem_cons_of_mem _ hy))
      (hP m sn x.name x.quantity (hl x (List.mem_cons_self _ _)) h)

/-- A property of the pool kept by every replenishment of a quantity >= 0 is kept by
`prepareNextDish` when the queued dishes require quantities >= 0. -/
theorem prepareNextDish_pool_nonneg (P : List Ingredient → Prop)
    (hP : ∀ (m : StationManager) (sn inn : String) (q : Int), 0 ≤ q →
      P m.backup_ingredients_ →
      P (m.replenishStationIngredientFromBackup sn inn q).2.backup_ingredients_)
    (m : StationManager) (hq : queueQuantitiesOk m) (h : P m.backup_ingredients_) :
    P m.prepareNextDish.2.backup_ingredients_ := by
  have hattempt : ∀ (dish : Dish), (∀ x ∈ dish.ingredients, 0 ≤ x.quantity) →
      ∀ (i : Nat) (st : KitchenStation) (m : StationManager),
      P m.backup_ingredients_ → P (attemptStation dish i st m).2.backup_ingredients_ := by
    intro dish hd i st m hm
    rcases attemptStation_pool dish i st m with e | e
    · rw [e]; exact hm
    · rw [e]
      exact replenishAll_inv_nonneg (fun x => P x.backup_ingredients_) hP _ _ _ hd hm
  have hscan : ∀ (dish : Dish), (∀ x ∈ dish.ingredients, 0 ≤ x.quantity) →
      ∀ (fuel i : Nat) (m : StationManager),
      P m.backup_ingredients_ → P (scanStations dish fuel i m).2.backup_ingredients_ := by
    intro dish hd fuel
    induction fuel with
    | zero => intro i m hm; exact hm
    | succ fuel ih =>
      intro i m hm
      cases hg : m.stations.get? i with
      | none => rw [scanStations_none dish _ i m hg]; exact hm
      | some st =>
        by_cases hr : (attemptStation dish i st m).1 = true
        · rw [scanStations_hit dish fuel i m st hg hr]
          exact hattempt dish hd i st m hm
        · have hr' : (attemptStation dish i st m).1 = false := by simpa using hr
          rw [scanStations_miss dish fuel i m st hg hr']
          exact ih (i + 1) _ (hattempt dish hd i st m hm)
  unfold prepareNextDish
  cases hqueue : m.dish_queue_ with
  | nil => exact h
  | cons d rest =>
    exact hscan d (hq d (by rw [hqueue]; exact List.mem_cons_self _ _)) _ 0 m h

/-- The loop of `processAllDishes` likewise. -/
theorem processLoop_pool_nonneg (P : List Ingredient → Prop)
    (hP : ∀ (m : StationManager) (sn inn : String) (q : Int), 0 ≤ q →
      P m.backup_ingredients_ →
      P (m.replenishStationIngredientFromBackup sn inn q).2.backup_ingredients_)
    (n : Nat) : ∀ (m : StationManager) (out : List Attempt × StationManager),
      processLoop n m = some out → queueQuantitiesOk m → P m.backup_ingredients_ →
      P out.2.backup_ingredients_ := by
  induction n with
  | zero =>
    intro m out ho _ hm
    simp only [processLoop, Option.some.injEq] at ho
    rw [← ho]; exact hm
  | succ n ih =>
    intro m out ho hq hm
    have hnext := prepareNextDish_pool_nonneg P hP m hq hm
    obtain ⟨_, ht, hf⟩ := prepareNextDish_frame m
    simp only [processLoop] at ho
    by_cases hr : m.prepareNextDish.1 = true
    · simp only [hr, if_true, Option.map_eq_some'] at ho
      obtain ⟨out', ho', rfl⟩ := ho
      refine ih _ out' ho' ?_ hnext
      intro d hd
      rw [ht hr] at hd
      exact hq d (List.mem_of_mem_tail hd)
    · have hr' : m.prepareNextDish.1 = false := by simpa using hr
      simp only [hr, Bool.false_eq_true, if_false] at ho
      cases hqueue : m.prepareNextDish.2.dish_queue_ with
      | nil => rw [hqueue] at ho; exact absurd ho (by simp)
      | cons d rest =>
        rw [hqueue] at ho
        simp only [Option.map_eq_some'] at ho
        obtain ⟨out', ho', rfl⟩ := ho
        refine ih _ out' ho' ?_ hnext
        intro d' hd'
        have hsame : m.dish_queue_ = d :: rest := by rw [← hf hr', hqueue]
        simp only [List.mem_append, List.mem_singleton] at hd'
        rcases hd' with hd' | hd'
        · exact hq d' (by rw [hsame]; exact List.mem_cons_of_mem _ hd')
        · exact hq d' (by rw [hsame, hd']; exact List.mem_cons_self _ _)

/-- A replenishment of a quantity >= 0 keeps the entries of the pool between `lo` and the
largest `int`, for `lo` at most 1. -/
theorem replenish_keeps_bounds (lo : Int) (hlo : lo ≤ 1) (m : StationManager)
    (sn inn : String) (q : Int) (hq : 0 ≤ q)
    (h : ∀ e ∈ m.backup_ingredients_, quantityOk lo e.quantity) :
    ∀ e ∈ (m.replenishStationIngredientFromBackup sn inn q).2.backup_ingredients_,
      quantityOk lo e.quantity := by
  rcases replenish_pool m sn inn q with he | ⟨pre, e, post, hb, hle, hr⟩
  · rw [he]; exact h
  · rw [hr]
    intro x hx
    rcases mem_backupAfter pre post e x q hx with hx | hx | ⟨rfl, hz⟩
    · exact h x (by rw [hb]; simp [hx])
    · exact h x (by rw [hb]; simp [hx])
    · have he := h e (by rw [hb]; simp)
      unfold quantityOk at he ⊢
      show lo ≤ e.quantity - q ∧ e.quantity - q < 2147483648
      omega

/-- Source `addBackupIngredient` keeps the entries of the pool between `lo` and the largest
`int` when the ingredient is in these bounds and its addition does not overflow. -/
theorem addBackupIngredient_keeps_bounds (lo : Int) (hlo : 0 ≤ lo) (m : StationManager)
    (x : Ingredient) (hx : quantityOk lo x.quantity) (hfit : addFits m x)
    (h : ∀ e ∈ m.backup_ingredients_, quantityOk lo e.quantity) :
    ∀ e ∈ (m.addBackupIngredient x).2.backup_ingredients_, quantityOk lo e.quantity := by
  rcases first_split (fun y : Ingredient => y.name = x.name)
      m.backup_ingredients_ with hn | ⟨pre, e, post, hb, hpre, he⟩
  · rw [addBackupIngredient_absent m x hn]
    intro y hy
    rcases List.mem_append.1 hy with hy | hy
    · exact h y hy
    · simp only [List.mem_singleton] at hy
      rw [hy]; exact hx
  · rw [addBackupIngredient_found m x pre post e ⟨hb, hpre, he⟩]
    intro y hy
    simp only [List.mem_append, List.mem_cons] at hy
    have hbound := h e (by rw [hb]; simp)
    have hsum := hfit pre e post ⟨hb, hpre, he⟩
    rcases hy with hy | rfl | hy
    · exact h y (by rw [hb]; simp [hy])
    · unfold quantityOk at hbound hx ⊢
      have hw : wrapInt32 (e.quantity + x.quantity) = e.quantity + x.quantity :=
        wrapInt32_of_fits _ ⟨by omega, hsum⟩
      show lo ≤ wrapInt32 (e.quantity + x.quantity) ∧
        wrapInt32 (e.quantity + x.quantity) < 2147483648
      rw [hw]
      omega
    · exact h y (by rw [hb]; simp [hy])

/-- In every state reachable by the operations of `QuantityStep` the entries of the pool
lie between `lo` and the largest `int`, for `lo` equal to 0 or 1. -/
theorem quantityReachable_bounds (lo : Int) (hlo0 : 0 ≤ lo) (hlo1 : lo ≤ 1)
    (m : StationManager) (h : QuantityReachable lo m) :
    ∀ e ∈ m.backup_ingredients_, quantityOk lo e.quantity := by
  induction h with
  | start => intro e he; simp [emptyManager] at he
  | step m m' _ hstep ih =>
    cases hstep with
    | addBackupIngredients l hl => exact hl
    | addBackupIngredient x hx hfit =>
      exact addBackupIngredient_keeps_bounds lo hlo0 m x hx hfit ih
    | clearBackupIngredients => intro e he; simp [clearBackupIngredients] at he
    | replenishStationIngredientFromBackup sn inn q hq =>
      exact replenish_keeps_bounds lo hlo1 m sn inn q hq ih
    | prepareNextDish hq =>
      exact prepareNextDish_pool_nonneg (fun l => ∀ e ∈ l, quantityOk lo e.quantity)
        (fun m sn inn q hq h => replenish_keeps_bounds lo hlo1 m sn inn q hq h) m hq ih
    | processAllDishes _ hq ho =>
      simp only [processAllDishes, processAllDishesLog, Option.map_eq_some'] at ho
      obtain ⟨out, ho, rfl⟩ := ho
      exact processLoop_pool_nonneg (fun l => ∀ e ∈ l, quantityOk lo e.quantity)
        (fun m sn inn q hq h => replenish_keeps_bounds lo hlo1 m sn inn q hq h)
        _ m out ho hq ih
    | other _ he => rw [he]; exact ih

end StationManager

/-- C13 as stated fails.  On the pool [Flour 1, Flour 5], which contains an entry named
Flour, adding 2 Flour returns true and leaves [Flour 3, Flour 5], two entries named Flour
and not exactly one.  And on the pool [Flour 2147483647] adding 1 Flour leaves the entry
with the quantity -2147483648, the wrapped `int` sum, and not the previous quantity plus
1. -/
theorem addBackupIngredient_counterexample :
    ((∃ e ∈ (⟨[], [], [flour 1, flour 5]⟩ : StationManager).backup_ingredients_,
        e.name = (flour 2).name) ∧
      (⟨[], [], [flour 1, flour 5]⟩ : StationManager).addBackupIngredient (flour 2)
        = (true, ⟨[], [], [flour 3, flour 5]⟩) ∧
      entriesNamed ((⟨[], [], [flour 1, flour 5]⟩ : StationManager).addBackupIngredient
        (flour 2)).2.backup_ingredients_ "Flour" = 2) ∧
    ((∃ e ∈ (⟨[], [], [flour intMax]⟩ : StationManager).backup_ingredients_,
        e.name = (flour 1).name) ∧
      (⟨[], [], [flour intMax]⟩ : StationManager).addBackupIngredient (flour 1)
        = (true, ⟨[], [], [flour (-2147483648)]⟩) ∧
      (-2147483648 : Int) ≠ intMax + 1) := by
  refine ⟨⟨⟨flour 1, by decide, rfl⟩, by decide, by decide⟩,
    ⟨flour intMax, by decide, rfl⟩, by decide, by decide⟩

/-- C13, amended: for every backup pool that contains an entry named N and every
ingredient I named N, addBackupIngredient(I) returns true, adds no entry, and changes
only the first entry named N, whose quantity becomes the `int` sum of its previous
quantity and I's quantity, which is that sum itself whenever the sum is one a 32-bit
`int` can hold; the pool holds as many entries of each name as before, so exactly one
entry named N when it held exactly one, and that entry then carries the sum. -/
theorem addBackupIngredient_sums (m : StationManager) (I : Ingredient)
    (h : ∃ e ∈ m.backup_ingredients_, e.name = I.name) :
    ∃ pre e post, FirstNamed m.backup_ingredients_ pre e post I.name ∧
      m.addBackupIngredient I = (true, { m with backup_ingredients_ :=
        pre ++ { name := I.name, quantity := wrapInt32 (e.quantity + I.quantity) } :: post }) ∧
      (fitsInt32 (e.quantity + I.quantity) →
        m.addBackupIngredient I = (true, { m with backup_ingredients_ :=
          pre ++ { name := I.name, quantity := e.quantity + I.quantity } :: post })) ∧
      (∀ n, entriesNamed (m.addBackupIngredient I).2.backup_ingredients_ n
        = entriesNamed m.backup_ingredients_ n) ∧
      (entriesNamed m.backup_ingredients_ I.name = 1 →
        entriesNamed (m.addBackupIngredient I).2.backup_ingredients_ I.name = 1 ∧
        (fitsInt32 (e.quantity + I.quantity) →
          ∀ x ∈ (m.addBackupIngredient I).2.backup_ingredients_, x.name = I.name →
            x.quantity = e.quantity + I.quantity)) := by
  rcases StationManager.first_split (fun x : Ingredient => x.name = I.name)
      m.backup_ingredients_ with hn | ⟨pre, e, post, hb, hpre, he⟩
  · obtain ⟨e, he, hen⟩ := h
    exact absurd hen (hn e he)
  have hr := StationManager.addBackupIngredient_found m I pre post e ⟨hb, hpre, he⟩
  rw [he] at hr
  have hcount : ∀ n, entriesNamed (m.addBackupIngredient I).2.backup_ingredients_ n
      = entriesNamed m.backup_ingredients_ n := by
    intro n
    rw [hr, hb]
    simp only [entriesNamed, List.filter_append, List.filter_cons, he, List.length_append]
    by_cases hn : I.name = n
    · simp [hn]
    · simp [hn]
  refine ⟨pre, e, post, ⟨hb, hpre, he⟩, hr, ?_, hcount, ?_⟩
  · intro hfit
    rw [hr, StationManager.wrapInt32_of_fits _ hfit]
  intro hone
  refine ⟨by rw [hcount]; exact hone, ?_⟩
  intro hfit
  have hpost : ∀ x ∈ post, x.name ≠ I.name := by
    intro x hx hxn
    rw [hb] at hone
    simp only [entriesNamed, List.filter_append, List.filter_cons, he, decide_True, if_true,
      List.length_append, List.length_cons] at hone
    have hmem : x ∈ post.filter (fun x => decide (x.name = I.name)) :=
      List.mem_filter.2 ⟨hx, by simpa using hxn⟩
    have hpos := List.length_pos_of_mem hmem
    omega
  intro x hx hxn
  rw [hr] at hx
  simp only [List.mem_append, List.mem_cons] at hx
  rcases hx with hx | rfl | hx
  · exact absurd hxn (hpre x hx)
  · exact StationManager.wrapInt32_of_fits _ hfit
  · exact absurd hxn (hpost x hx)

/-- Witness for C13: 2 Flour added to the pool [Flour 5]. -/
theorem addBackupIngredient_sums_witness :
    (∃ e ∈ (scenario [] 5).backup_ingredients_, e.name = (flour 2).name) ∧
    (scenario [] 5).addBackupIngredient (flour 2)
      = (true, { scenario [] 5 with backup_ingredients_ := [flour 7] }) ∧
    ∃ pre e post, FirstNamed (scenario [] 5).backup_ingredients_ pre e post (flour 2).name ∧
      (scenario [] 5).addBackupIngredient (flour 2)
        = (true, { scenario [] 5 with backup_ingredients_ :=
            pre ++ { name := (flour 2).name,
                     quantity := wrapInt32 (e.quantity + (flour 2).quantity) } :: post }) := by
  refine ⟨⟨flour 5, by decide, rfl⟩, by decide, ?_⟩
  obtain ⟨pre, e, post, h1, h2, _⟩ :=
    addBackupIngredient_sums (scenario [] 5) (flour 2) ⟨flour 5, by decide, rfl⟩
  exact ⟨pre, e, post, h1, h2⟩

/-- C14 as stated fails.  Quantity 0 is a legal ingredient quantity, and adding 0 Flour to
the empty manager leaves a backup entry of quantity 0 in the pool.  And adding
2147483647 Flour and then 1 Flour, both quantities >= 0, leaves the entry with the
wrapped `int` sum -2147483648, a negative quantity. -/
theorem backup_zero_entry_counterexample :
    (PoolReachable (fun l => ∀ x ∈ l, 0 ≤ x.quantity) (fun x => 0 ≤ x.quantity)
        (emptyManager.addBackupIngredient (flour 0)).2 ∧
      (emptyManager.addBackupIngredient (flour 0)).2.backup_ingredients_ = [flour 0] ∧
      ∃ e ∈ (emptyManager.addBackupIngredient (flour 0)).2.backup_ingredients_,
        e.quantity = 0) ∧
    (PoolReachable (fun l => ∀ x ∈ l, 0 ≤ x.quantity) (fun x => 0 ≤ x.quantity)
        ((emptyManager.addBackupIngredient (flour intMax)).2.addBackupIngredient
          (flour 1)).2 ∧
      ((emptyManager.addBackupIngredient (flour intMax)).2.addBackupIngredient
          (flour 1)).2.backup_ingredients_ = [flour (-2147483648)] ∧
      ∃ e ∈ ((emptyManager.addBackupIngredient (flour intMax)).2.addBackupIngredient
          (flour 1)).2.backup_ingredients_, e.quantity < 0) :=
  ⟨⟨PoolReachable.step _ _ PoolReachable.start
      (PoolStep.addBackupIngredient emptyManager (flour 0) (by decide)),
    by decide, flour 0, by decide, rfl⟩,
   PoolReachable.step _ _
      (PoolReachable.step _ _ PoolReachable.start
        (PoolStep.addBackupIngredient emptyManager (flour intMax) (by decide)))
      (PoolStep.addBackupIngredient _ (flour 1) (by decide)),
    by decide, flour (-2147483648), by decide, by decide⟩

/-- C14, amended: in every state reachable from the empty manager through
addBackupIngredients, addBackupIngredient, clearBackupIngredients,
replenishStationIngredientFromBackup, prepareNextDish and processAllDishes (and
operations that do not write the pool), where the ingredients that are added carry `int`
quantities >= 0 whose addition overflows no `int` and the quantities asked of a
replenishment or required by a queued dish are >= 0, no backup entry has a negative
quantity (and every entry is one an `int` can hold); and when every ingredient that is
added has a quantity > 0, no backup entry has quantity 0 either. -/
theorem backup_quantities_invariant (m : StationManager) (h : QuantityReachable 0 m) :
    (∀ e ∈ m.backup_ingredients_, 0 ≤ e.quantity ∧ fitsInt32 e.quantity) ∧
    (QuantityReachable 1 m →
      ∀ e ∈ m.backup_ingredients_, 0 < e.quantity ∧ e.quantity ≠ 0) := by
  constructor
  · intro e he
    have hb := StationManager.quantityReachable_bounds 0 (le_refl _) (by decide) m h e he
    unfold quantityOk at hb
    unfold fitsInt32
    omega
  · intro hpos e he
    have hb := StationManager.quantityReachable_bounds 1 (by decide) (le_refl _) m hpos e he
    unfold quantityOk at hb
    omega

/-- Witness for C14: 5 Flour added to the empty manager, then 2 more. -/
theorem backup_quantities_invariant_witness :
    QuantityReachable 0
      ((emptyManager.addBackupIngredient (flour 5)).2.addBackupIngredient (flour 2)).2 ∧
    ((emptyManager.addBackupIngredient (flour 5)).2.addBackupIngredient
      (flour 2)).2.backup_ingredients_ = [flour 7] ∧
    ∀ e ∈ ((emptyManager.addBackupIngredient (flour 5)).2.addBackupIngredient
        (flour 2)).2.backup_ingredients_, 0 ≤ e.quantity ∧ fitsInt32 e.quantity := by
  have hreach : QuantityReachable 0
      ((emptyManager.addBackupIngredient (flour 5)).2.addBackupIngredient (flour 2)).2 := by
    refine QuantityReachable.step _ _
      (QuantityReachable.step _ _ QuantityReachable.start
        (QuantityStep.addBackupIngredient emptyManager (flour 5) ⟨by decide, by decide⟩ ?_))
      (QuantityStep.addBackupIngredient _ (flour 2) ⟨by decide, by decide⟩ ?_)
    · intro pre e post hf
      have hmem : e ∈ emptyManager.backup_ingredients_ := by rw [hf.1]; simp
      simp [emptyManager] at hmem
    · intro pre e post hf
      have hmem : e ∈ (emptyManager.addBackupIngredient (flour 5)).2.backup_ingredients_ := by
        rw [hf.1]; simp
      have hpool : (emptyManager.addBackupIngredient (flour 5)).2.backup_ingredients_
          = [flour 5] := by decide
      rw [hpool, List.mem_singleton] at hmem
      rw [hmem]
      decide
  exact ⟨hreach, by decide, (backup_quantities_invariant _ hreach).1⟩

/-- C15 as stated fails: addBackupIngredients replaces the pool by the list it is given,
so the list [Flour 1, Flour 1] handed to the empty manager leaves two entries named
Flour. -/
theorem backup_duplicate_counterexample :
    PoolReachable (fun _ => True) (fun _ => True)
      (emptyManager.addBackupIngredients [flour 1, flour 1]).2 ∧
    (emptyManager.addBackupIngredients [flour 1, flour 1]).2.backup_ingredients_
      = [flour 1, flour 1] ∧
    ¬ (ingredientNames
      (emptyManager.addBackupIngredients [flour 1, flour 1]).2.backup_ingredients_).Nodup :=
  ⟨PoolReachable.step _ _ PoolReachable.start
      (PoolStep.addBackupIngredients emptyManager [flour 1, flour 1] trivial),
    by decide, by decide⟩

/-- C15, amended: in every state reachable from the empty manager through
addBackupIngredients with lists that hold no two entries of one name,
addBackupIngredient, clearBackupIngredients and replenishStationIngredientFromBackup
(and prepareNextDish, processAllDishes and operations that do not write the pool), the
backup pool never holds two entries with the same ingredient name. -/
theorem backup_names_unique (m : StationManager)
    (h : PoolReachable (fun l => (ingredientNames l).Nodup) (fun _ => True) m) :
    (ingredientNames m.backup_ingredients_).Nodup := by
  refine StationManager.poolReachable_inv _ _ (fun l => (ingredientNames l).Nodup)
    (by simp [ingredientNames]) (fun l hl => hl) ?_ StationManager.replenish_keeps_nodup m h
  intro m x _ hm
  rcases StationManager.first_split (fun y : Ingredient => y.name = x.name)
      m.backup_ingredients_ with hn | ⟨pre, e, post, hb, hpre, he⟩
  · rw [StationManager.addBackupIngredient_absent m x hn]
    simp only [ingredientNames, List.map_append, List.map_cons, List.map_nil]
    refine List.Nodup.append hm (by simp) ?_
    intro n hn1 hn2
    simp only [List.mem_singleton] at hn2
    obtain ⟨y, hy, hyn⟩ := List.mem_map.1 hn1
    exact hn y hy (hyn.trans hn2)
  · rw [StationManager.addBackupIngredient_found m x pre post e ⟨hb, hpre, he⟩]
    have : ingredientNames
        (pre ++ { name := e.name, quantity := wrapInt32 (e.quantity + x.quantity) } :: post)
        = ingredientNames m.backup_ingredients_ := by
      rw [hb]; simp [ingredientNames]
    show (ingredientNames (pre ++ _ :: post)).Nodup
    rw [this]; exact hm

/-- Witness for C15: the list [Flour 1, Sugar 1] handed to the empty manager. -/
theorem backup_names_unique_witness :
    PoolReachable (fun l => (ingredientNames l).Nodup) (fun _ => True)
      (emptyManager.addBackupIngredients [flour 1, sugar 1]).2 ∧
    (ingredientNames
      (emptyManager.addBackupIngredients [flour 1, sugar 1]).2.backup_ingredients_).Nodup :=
  ⟨PoolReachable.step _ _ PoolReachable.start
      (PoolStep.addBackupIngredients emptyManager [flour 1, sugar 1] (by decide)),
   backup_names_unique _
      (PoolReachable.step _ _ PoolReachable.start
        (PoolStep.addBackupIngredients emptyManager [flour 1, sugar 1] (by decide)))⟩

/-! ## Station names across the registry operations -/

theorem findIf_get? {α : Type} (p : α → Bool) (l : List α) (i : Nat)
    (h : findIf p l = some i) : ∃ x, l.get? i = some x := by
  obtain ⟨pre, x, post, hl, hlen, _, _⟩ := (findIf_eq_some p l i).1 h
  exact ⟨x, by rw [hl, ← hlen]; exact get?_append_cons _ _ _⟩

theorem stationNames_modifyAt (f : KitchenStation → KitchenStation)
    (hf : ∀ s, (f s).name = s.name) (p : Nat) (l : List KitchenStation) :
    stationNames (modifyAt f p l) = stationNames l := by
  induction l generalizing p with
  | nil => cases p <;> rfl
  | cons a l ih =>
    cases p with
    | zero => simp [modifyAt, stationNames, hf]
    | succ p =>
      have := ih p
      simp only [stationNames] at this
      simp [modifyAt, stationNames, this]

namespace StationManager

theorem addStation_eval (m : StationManager) (s : KitchenStation) :
    m.addStation s = (true, { m with stations := m.stations ++ [s] }) := by
  have h : (0 : Int) ≤ m.item_count_ ∧ m.item_count_ ≤ m.item_count_ :=
    ⟨by simp only [item_count_]; exact Int.natCast_nonneg _, le_refl _⟩
  simp only [addStation, insert, h, and_self, if_true]
  simp [item_count_]

theorem removeStation_names (m : StationManager) (n : String) :
    (stationNames (m.removeStation n).2.stations).Sublist (stationNames m.stations) := by
  rcases first_split (fun s : KitchenStation => s.name = n) m.stations with
    hn | ⟨pre, s, post, hs, hpre, hsn⟩
  · rw [removeStation_absent m n hn]
  · rw [removeStation_split m n pre post s ⟨hs, hpre, hsn⟩, hs]
    simp only [stationNames, List.map_append, List.map_cons]
    exact (List.Sublist.refl _).append (List.sublist_cons_self _ _)

theorem moveStationToFront_names (m : StationManager) (n : String) :
    (stationNames (m.moveStationToFront n).2.stations).Perm (stationNames m.stations) := by
  rcases first_split (fun s : KitchenStation => s.name = n) m.stations with
    hn | ⟨pre, s, post, hs, hpre, hsn⟩
  · rw [moveStationToFront_absent m n hn]
  · rw [moveStationToFront_split m n pre post s ⟨hs, hpre, hsn⟩, hs]
    simp only [stationNames, List.map_append, List.map_cons]
    exact List.perm_middle.symm

theorem mergeStations_names (m : StationManager) (a b : String) :
    (stationNames (m.mergeStations a b).2.stations).Sublist (stationNames m.stations) := by
  cases h1 : m.findStation a with
  | none =>
    have : m.mergeStations a b = (false, m) := by
      unfold mergeStations; rw [h1]
    rw [this]
  | some p1 =>
    cases h2 : m.findStation b with
    | none =>
      have : m.mergeStations a b = (false, m) := by
        unfold mergeStations; rw [h1, h2]
      rw [this]
    | some p2 =>
      obtain ⟨s2, hg⟩ := findIf_get? _ _ _ h2
      rw [mergeStations_eval m a b p1 p2 s2 h1 h2 hg]
      refine (removeStation_names _ b).trans ?_
      have hnames := stationNames_modifyAt
        (fun s => replenishFrom (assignAll s s2.dishes) s2.ingredients_stock)
        (fun s => (merged_station s s2).1) p1 m.stations
      show (stationNames (modifyAt _ p1 m.stations)).Sublist _
      rw [hnames]

/-- Station names stay unique under every registry operation, as long as `addStation` is
given a station whose name is not in the registry yet. -/
theorem registryReachable_nodup (m : StationManager)
    (h : RegistryReachable (fun m s => s.name ∉ stationNames m.stations) m) :
    (stationNames m.stations).Nodup := by
  induction h with
  | start m hm => rw [hm]; simp [stationNames]
  | step m m' _ hstep ih =>
    cases hstep with
    | addStation s hs =>
      rw [addStation_eval]
      simp only [stationNames, List.map_append, List.map_cons, List.map_nil]
      refine List.Nodup.append ih (by simp) ?_
      intro n hn1 hn2
      simp only [List.mem_singleton] at hn2
      exact hs (hn2 ▸ hn1)
    | removeStation n => exact (removeStation_names m n).nodup ih
    | moveStationToFront n => exact (moveStationToFront_names m n).nodup_iff.2 ih
    | mergeStations a b => exact (mergeStations_names m a b).nodup ih

end StationManager

/-- C16 as stated fails: addStation appends without looking at the names, so adding two
stations named A to the empty registry leaves two stations of the same name. -/
theorem registry_duplicate_counterexample :
    RegistryReachable (fun _ _ => True)
      ((emptyManager.addStation (bare "A")).2.addStation (bare "A")).2 ∧
    ((emptyManager.addStation (bare "A")).2.addStation (bare "A")).2.stations
      = [bare "A", bare "A"] ∧
    ¬ (stationNames
      ((emptyManager.addStation (bare "A")).2.addStation (bare "A")).2.stations).Nodup :=
  ⟨RegistryReachable.step _ _
      (RegistryReachable.step _ _ (RegistryReachable.start emptyManager rfl)
        (RegistryStep.addStation emptyManager (bare "A") trivial))
      (RegistryStep.addStation _ (bare "A") trivial),
    by decide, by decide⟩

/-- C16, amended: in every state reachable from an empty registry through addStation with
stations whose name is not yet in the registry, removeStation, moveStationToFront and
mergeStations, no two stations in the registry have the same name. -/
theorem registry_names_unique (m : StationManager)
    (h : RegistryReachable (fun m s => s.name ∉ stationNames m.stations) m) :
    (stationNames m.stations).Nodup ∧
    ∀ i j (hi : i < m.stations.length) (hj : j < m.stations.length),
      (m.stations.get ⟨i, hi⟩).name = (m.stations.get ⟨j, hj⟩).name → i = j := by
  have hnd := StationManager.registryReachable_nodup m h
  refine ⟨hnd, ?_⟩
  intro i j hi hj hname
  have hi' : i < (stationNames m.stations).length := by simpa [stationNames] using hi
  have hj' : j < (stationNames m.stations).length := by simpa [stationNames] using hj
  have := (List.Nodup.get_inj_iff hnd (i := ⟨i, hi'⟩) (j := ⟨j, hj'⟩)).1
    (by simpa [stationNames] using hname)
  simpa using this

/-- Witness for C16: stations A and B added to the empty registry. -/
theorem registry_names_unique_witness :
    RegistryReachable (fun m s => s.name ∉ stationNames m.stations)
      ((emptyManager.addStation (bare "A")).2.addStation (bare "B")).2 ∧
    (stationNames
      ((emptyManager.addStation (bare "A")).2.addStation (bare "B")).2.stations).Nodup :=
  ⟨RegistryReachable.step _ _
      (RegistryReachable.step _ _ (RegistryReachable.start emptyManager rfl)
        (RegistryStep.addStation emptyManager (bare "A") (by decide)))
      (RegistryStep.addStation _ (bare "B") (by decide)),
   (registry_names_unique _
      (RegistryReachable.step _ _
        (RegistryReachable.step _ _ (RegistryReachable.start emptyManager rfl)
          (RegistryStep.addStation emptyManager (bare "A") (by decide)))
        (RegistryStep.addStation _ (bare "B") (by decide)))).1⟩

/-! ## The stations behind the one that prepares the dish -/

theorem modifyAt_drop {α : Type} (f : α → α) (p i : Nat) (l : List α) (h : p ≤ i) :
    (modifyAt f p l).drop (i + 1) = l.drop (i + 1) := by
  induction l generalizing p i with
  | nil => cases p <;> rfl
  | cons a l ih =>
    cases p with
    | zero => simp [modifyAt]
    | succ p =>
      cases i with
      | zero => omega
      | succ i =>
        simp only [modifyAt, List.drop_succ_cons]
        exact ih p i (by omega)

theorem drop_eq_of_le {α : Type} (l1 l2 : List α) (a b : Nat)
    (h : l1.drop a = l2.drop a) (hab : a ≤ b) : l1.drop b = l2.drop b := by
  obtain ⟨c, rfl⟩ := Nat.exists_eq_add_of_le hab
  have key : ∀ l : List α, l.drop (a + c) = (l.drop a).drop c := by
    intro l; rw [List.drop_drop, Nat.add_comm]
  rw [key, key, h]

theorem get?_eq_of_drop {α : Type} (l1 l2 : List α) (a j : Nat)
    (h : l1.drop a = l2.drop a) (haj : a ≤ j) : l1.get? j = l2.get? j := by
  have key : ∀ l : List α, l.get? j = (l.drop a).get? (j - a) := by
    intro l
    rw [List.get?_eq_getElem?, List.get?_eq_getElem?, List.getElem?_drop]
    congr 1; omega
  rw [key, key, h]

/-- The element found by `findIf` stands at or before every element with the property. -/
theorem findIf_le {α : Type} (p : α → Bool) (l : List α) (k i : Nat) (x : α)
    (h : findIf p l = some k) (hg : l.get? i = some x) (hx : p x = true) : k ≤ i := by
  obtain ⟨pre, y, post, hl, hlen, _, hpre⟩ := (findIf_eq_some p l k).1 h
  by_contra hlt
  have hi : i < pre.length := by omega
  rw [hl] at hg
  have hmem : x ∈ pre := by
    have h1 : (pre ++ y :: post).get? i = pre.get? i := by
      rw [List.get?_eq_getElem?, List.get?_eq_getElem?, List.getElem?_append_left hi]
    rw [h1] at hg
    exact List.get?_mem hg
  rw [hpre x hmem] at hx
  exact absurd hx (by simp)

namespace StationManager

/-- The registry after `replenishStationIngredientFromBackup`: as before, or with one
write to the first station of the name. -/
theorem replenish_stations (m : StationManager) (sn inn : String) (q : Int) :
    (m.replenishStationIngredientFromBackup sn inn q).2.stations = m.stations ∨
    ∃ p, m.findStation sn = some p ∧
      (m.replenishStationIngredientFromBackup sn inn q).2.stations
        = modifyAt (fun s => s.replenishStationIngredients { name := inn, quantity := q })
            p m.stations := by
  rcases replenish_cases m sn inn q with ⟨hf, _⟩ | ⟨_, _, _, spre, s, spost, _, _, hs, hr⟩
  · left; rw [hf]
  · right
    refine ⟨spre.length, findStation_split m sn spre spost s hs, ?_⟩
    rw [hr, hs.1, modifyAt_append_cons]

/-- A replenishment asked for in the name of the station at position `i` writes at or
before position `i`: the stations behind it are untouched and the station at `i` keeps
its name. -/
theorem replenish_behind (m : StationManager) (sn inn : String) (q : Int) (i : Nat)
    (h : ∃ st, m.stations.get? i = some st ∧ st.name = sn) :
    (m.replenishStationIngredientFromBackup sn inn q).2.stations.drop (i + 1)
        = m.stations.drop (i + 1) ∧
    ∃ st, (m.replenishStationIngredientFromBackup sn inn q).2.stations.get? i = some st ∧
      st.name = sn := by
  rcases replenish_stations m sn inn q with he | ⟨p, hp, he⟩
  · rw [he]; exact ⟨rfl, h⟩
  · obtain ⟨st, hst, hname⟩ := h
    have hle : p ≤ i := findIf_le _ _ _ _ st hp hst (by simpa using hname)
    rw [he]
    refine ⟨modifyAt_drop _ p i _ hle, ?_⟩
    rw [modifyAt_get?, hst]
    by_cases hpi : p = i
    · exact ⟨st.replenishStationIngredients { name := inn, quantity := q },
        by simp [hpi], hname⟩
    · exact ⟨st, by simp [hpi], hname⟩

/-- A property kept by every replenishment for one station name is kept by the
replenishment loop for that name. -/
theorem replenishAll_inv_name (sn : String) (P : StationManager → Prop)
    (hP : ∀ (m : StationManager) (inn : String) (q : Int),
      P m → P (m.replenishStationIngredientFromBackup sn inn q).2)
    (m : StationManager) (l : List Ingredient) (h : P m) :
    P (m.replenishAll sn l).2 := by
  induction l generalizing m with
  | nil => simpa [replenishAll_nil] using h
  | cons x l ih =>
    rw [replenishAll_cons]
    exact ih _ (hP m x.name x.quantity h)

theorem replenishAll_behind (m : StationManager) (sn : String) (l : List Ingredient)
    (i : Nat) (h : ∃ st, m.stations.get? i = some st ∧ st.name = sn) :
    (m.replenishAll sn l).2.stations.drop (i + 1) = m.stations.drop (i + 1) := by
  have := replenishAll_inv_name sn
    (fun x => x.stations.drop (i + 1) = m.stations.drop (i + 1) ∧
      ∃ st, x.stations.get? i = some st ∧ st.name = sn)
    (fun m' inn q hm' => by
      obtain ⟨h1, h2⟩ := replenish_behind m' sn inn q i hm'.2
      exact ⟨h1.trans hm'.1, h2⟩)
    m l ⟨rfl, h⟩
  exact this.1

theorem setStation_behind (m : StationManager) (i : Nat) (s : KitchenStation) :
    (m.setStation i s).stations.drop (i + 1) = m.stations.drop (i + 1) :=
  modifyAt_drop _ i i _ (le_refl i)

/-- One loop body of the scan leaves the stations behind its own position untouched. -/
theorem attemptStation_behind (dish : Dish) (i : Nat) (st : KitchenStation)
    (m : StationManager) (hg : m.stations.get? i = some st) :
    (attemptStation dish i st m).2.stations.drop (i + 1) = m.stations.drop (i + 1) := by
  have hrep : ((m.setStation i (st.prepareDish dish.name).2).replenishAll
      (st.prepareDish dish.name).2.name dish.ingredients).2.stations.drop (i + 1)
      = m.stations.drop (i + 1) := by
    rw [replenishAll_behind _ _ _ i, setStation_behind]
    refine ⟨(st.prepareDish dish.name).2, ?_, rfl⟩
    simp only [setStation]
    rw [modifyAt_get?, hg]
    simp
  unfold attemptStation
  by_cases hc : st.canPrepare dish = true
  · simp only [hc, if_true]
    by_cases h1 : (st.prepareDish dish.name).1 = true
    · simp only [h1, if_true]
      exact setStation_behind m i _
    · simp only [h1, Bool.false_eq_true, if_false]
      by_cases h2 : ((m.setStation i (st.prepareDish dish.name).2).replenishAll
          (st.prepareDish dish.name).2.name dish.ingredients).1 = true
      · simp only [h2, if_true]
        cases ((m.setStation i (st.prepareDish dish.name).2).replenishAll
            (st.prepareDish dish.name).2.name dish.ingredients).2.stations.get? i with
        | none => exact hrep
        | some st1 =>
          by_cases h4 : (st1.prepareDish dish.name).1 = true
          · simp only [h4, if_true]
            exact (setStation_behind _ i _).trans hrep
          · simp only [h4, Bool.false_eq_true, if_false]
            exact (setStation_behind _ i _).trans hrep
      · simp only [h2, Bool.false_eq_true, if_false]
        exact hrep
  · simp only [hc, Bool.false_eq_true, if_false]

/-- A successful scan stops at the first station that prepares the dish and leaves the
stations behind it untouched. -/
theorem scanStations_first (dish : Dish) (fuel i : Nat) (m : StationManager)
    (h : (scanStations dish fuel i m).1 = true) :
    ∃ k, k < fuel ∧ PreparedBy dish (i + k) (stateAfterAttempts dish k i m) ∧
      (∀ j, j < k → ¬ PreparedBy dish (i + j) (stateAfterAttempts dish j i m)) ∧
      (scanStations dish fuel i m).2.stations.drop (i + k + 1)
        = m.stations.drop (i + k + 1) := by
  induction fuel generalizing i m with
  | zero => simp [scanStations] at h
  | succ fuel ih =>
    cases hg : m.stations.get? i with
    | none =>
      rw [scanStations_none dish _ i m hg] at h
      exact absurd h (by simp)
    | some st =>
      by_cases hr : (attemptStation dish i st m).1 = true
      · rw [scanStations_hit dish fuel i m st hg hr]
        refine ⟨0, Nat.succ_pos _, (attemptStation_iff dish i st m hg).1 hr, ?_, ?_⟩
        · intro j hj; exact absurd hj (Nat.not_lt_zero _)
        · exact attemptStation_behind dish i st m hg
      · have hr' : (attemptStation dish i st m).1 = false := by simpa using hr
        have hnp : ¬ PreparedBy dish i m :=
          fun hp => hr ((attemptStation_iff dish i st m hg).2 hp)
        rw [scanStations_miss dish fuel i m st hg hr'] at h ⊢
        obtain ⟨k, hk, hp, hall, hdrop⟩ := ih (i + 1) _ h
        refine ⟨k + 1, Nat.succ_lt_succ hk, ?_, ?_, ?_⟩
        · rw [stateAfterAttempts_some dish k i m st hg]
          have e : i + (k + 1) = i + 1 + k := by omega
          rw [e]; exact hp
        · intro j hj
          cases j with
          | zero => exact hnp
          | succ j =>
            rw [stateAfterAttempts_some dish j i m st hg]
            have e : i + (j + 1) = i + 1 + j := by omega
            rw [e]; exact hall j (by omega)
        · have e : i + (k + 1) + 1 = i + 1 + k + 1 := by omega
          rw [e, hdrop]
          exact drop_eq_of_le _ _ (i + 1) _ (attemptStation_behind dish i st m hg)
            (by omega)

end StationManager

/-- C17: first success wins.  Whenever prepareNextDish returns true on a queue d :: rest,
there is exactly one station at which the scan stopped: it prepares d (directly or
after replenishment) in the state in which the scan reaches it, no station before it
does, and every station positioned after it in the registry is exactly as it was before
the call, stock included. -/
theorem prepareNextDish_first_success (m : StationManager) (d : Dish) (rest : List Dish)
    (hq : m.dish_queue_ = d :: rest) (hr : m.prepareNextDish.1 = true) :
    ∃ k, k < m.stations.length ∧
      PreparedBy d k (stateAfterAttempts d k 0 m) ∧
      (∀ j, j < k → ¬ PreparedBy d j (stateAfterAttempts d j 0 m)) ∧
      (∀ k', PreparedBy d k' (stateAfterAttempts d k' 0 m) →
        (∀ j, j < k' → ¬ PreparedBy d j (stateAfterAttempts d j 0 m)) → k' = k) ∧
      m.prepareNextDish.2.stations.drop (k + 1) = m.stations.drop (k + 1) ∧
      (∀ j, k < j → m.prepareNextDish.2.stations.get? j = m.stations.get? j) ∧
      m.prepareNextDish.2.stations.length = m.stations.length := by
  have hlen := (StationManager.prepareNextDish_frame m).1
  unfold StationManager.prepareNextDish at hr hlen ⊢
  rw [hq] at hr hlen ⊢
  simp only at hr hlen ⊢
  obtain ⟨k, hk, hp, hall, hdrop⟩ :=
    StationManager.scanStations_first d m.stations.length 0 m hr
  simp only [Nat.zero_add] at hp hall hdrop
  refine ⟨k, hk, hp, hall, ?_, hdrop, ?_, hlen⟩
  · intro k' hp' hall'
    rcases Nat.lt_trichotomy k' k with hlt | heq | hgt
    · exact absurd hp' (hall k' hlt)
    · exact heq
    · exact absurd hp (hall' k hgt)
  · intro j hj
    exact get?_eq_of_drop _ _ (k + 1) j hdrop hj

/-- Witness for C17: Grill prepares DishA after replenishment while a second station
stands behind it. -/
theorem prepareNextDish_first_success_witness :
    (⟨[grill [], grill [flour 7]], [dishA, dishB], [flour 5]⟩ : StationManager).dish_queue_
      = dishA :: [dishB] ∧
    (⟨[grill [], grill [flour 7]], [dishA, dishB], [flour 5]⟩ :
      StationManager).prepareNextDish.1 = true ∧
    ∃ k, k < 2 ∧
      (⟨[grill [], grill [flour 7]], [dishA, dishB], [flour 5]⟩ :
        StationManager).prepareNextDish.2.stations.drop (k + 1)
        = [grill [], grill [flour 7]].drop (k + 1) := by
  refine ⟨rfl, by decide, ?_⟩
  obtain ⟨k, hk, _, _, _, hdrop, _⟩ :=
    prepareNextDish_first_success ⟨[grill [], grill [flour 7]], [dishA, dishB], [flour 5]⟩
      dishA [dishB] rfl (by decide)
  exact ⟨k, hk, hdrop⟩

/-! ## Mutation on aggregate failure, safety of the batch loop, self-merge -/

/-- C18: partial mutation on aggregate failure.  Station Oven knows Pastry (2 Flour, then
1 Sugar) and holds no stock, the pool holds 5 Flour and no Sugar.  The direct attempt
fails, the Flour replenishment succeeds, the Sugar replenishment fails, the aggregate
is false and prepareNextDish returns false with the dish still queued, yet the pool went
from 5 to 3 Flour and Oven from 0 to 2 Flour.  With the requirements in the other order
(Crumble: 1 Sugar, then 2 Flour) the Sugar replenishment fails first and the Flour one
is still made, with the same outcome. -/
theorem prepareNextDish_mutates_on_failure :
    ((oven pastry []).canPrepare pastry = true ∧
      ((oven pastry []).prepareDish pastry.name).1 = false ∧
      ((bakery pastry).replenishStationIngredientFromBackup "Oven" "Flour" 2).1 = true ∧
      (((bakery pastry).replenishStationIngredientFromBackup "Oven" "Flour"
          2).2.replenishStationIngredientFromBackup "Oven" "Sugar" 1).1 = false ∧
      ((bakery pastry).replenishAll "Oven" pastry.ingredients).1 = false ∧
      (bakery pastry).prepareNextDish
        = (false, { stations := [oven pastry [flour 2]], dish_queue_ := [pastry],
                    backup_ingredients_ := [flour 3] }) ∧
      (bakery pastry).prepareNextDish.2.backup_ingredients_
        ≠ (bakery pastry).backup_ingredients_ ∧
      (bakery pastry).prepareNextDish.2.stations ≠ (bakery pastry).stations ∧
      stockQuantity (oven pastry []).ingredients_stock "Flour" = 0 ∧
      stockQuantity (oven pastry [flour 2]).ingredients_stock "Flour" = 2) ∧
    ((oven crumble []).canPrepare crumble = true ∧
      ((oven crumble []).prepareDish crumble.name).1 = false ∧
      (bakery crumble).replenishStationIngredientFromBackup "Oven" "Sugar" 1
        = (false, bakery crumble) ∧
      ((bakery crumble).replenishStationIngredientFromBackup "Oven" "Flour" 2).1 = true ∧
      ((bakery crumble).replenishAll "Oven" crumble.ingredients).1 = false ∧
      (bakery crumble).prepareNextDish
        = (false, { stations := [oven crumble [flour 2]], dish_queue_ := [crumble],
                    backup_ingredients_ := [flour 3] }) ∧
      (bakery crumble).prepareNextDish.2.backup_ingredients_
        ≠ (bakery crumble).backup_ingredients_ ∧
      (bakery crumble).prepareNextDish.2.stations ≠ (bakery crumble).stations) := by
  decide

/-- C19: processAllDishes never reads or pops the front of an empty queue.  For every
initial state the loop is defined for every number of iterations up to the snapshot of
the queue size, so each rotation finds a dish at the front; every invocation of
prepareNextDish is made on a non-empty queue; and the call ends after exactly as many
iterations as the queue held dishes at the start. -/
theorem processAllDishes_safe (m : StationManager) :
    (∃ m', m.processAllDishes = some m') ∧
    (∃ log m', m.processAllDishesLog = some (log, m') ∧
      log.length = m.dish_queue_.length ∧ ∀ a ∈ log, a.front ≠ none) ∧
    (∀ n, n ≤ m.dish_queue_.length →
      ∃ log m', StationManager.processLoop n m = some (log, m') ∧ log.length = n) := by
  have hloop : ∀ n, n ≤ m.dish_queue_.length →
      ∃ log m', StationManager.processLoop n m = some (log, m') ∧ log.length = n ∧
        log.map (fun a => a.front) = (m.dish_queue_.take n).map some := by
    intro n hn
    obtain ⟨log, m', hl, hfront, _, _⟩ :=
      StationManager.processLoop_spec (m.dish_queue_.take n) m (m.dish_queue_.drop n)
        (List.take_append_drop n m.dish_queue_).symm
    have hlen : (m.dish_queue_.take n).length = n := by
      rw [List.length_take]; omega
    rw [hlen] at hl
    refine ⟨log, m', hl, ?_, hfront⟩
    have := congrArg List.length hfront
    simp only [List.length_map] at this
    rw [this, hlen]
  obtain ⟨log, m', hl, hlen, hfront⟩ := hloop m.dish_queue_.length (le_refl _)
  refine ⟨⟨m', ?_⟩, ⟨log, m', hl, hlen, ?_⟩, ?_⟩
  · simp [StationManager.processAllDishes, StationManager.processAllDishesLog, hl]
  · intro a ha hnone
    have hmem : a.front ∈ log.map (fun a => a.front) := List.mem_map_of_mem _ ha
    rw [hfront, hnone] at hmem
    simp at hmem
  · intro n hn
    obtain ⟨log', m'', hl', hlen', _⟩ := hloop n hn
    exact ⟨log', m'', hl', hlen'⟩

/-- C20: mergeStations with the same name for both arguments.  For every registry
containing a station named X, mergeStations(X, X) returns true and the registry becomes
the registry without its first station named X: it is shorter by one, the other
stations are as they were and in the same order, and the dishes and stock of that
station are gone with it (no station named X is left when the name was unique). -/
theorem mergeStations_self_removes (m : StationManager) (X : String)
    (h : ∃ s ∈ m.stations, s.name = X) :
    ∃ pre s post, FirstStation m.stations pre s post X ∧
      m.mergeStations X X = (true, { m with stations := pre ++ post }) ∧
      (m.mergeStations X X).2.stations.length + 1 = m.stations.length ∧
      ((stationNames m.stations).Nodup →
        ∀ t ∈ (m.mergeStations X X).2.stations, t.name ≠ X) := by
  rcases StationManager.first_split (fun s : KitchenStation => s.name = X) m.stations with
    hn | ⟨pre, s, post, hs, hpre, hsn⟩
  · obtain ⟨s, hs, hsn⟩ := h
    exact absurd hsn (hn s hs)
  have hr := StationManager.mergeStations_same m X pre post s ⟨hs, hpre, hsn⟩
  refine ⟨pre, s, post, ⟨hs, hpre, hsn⟩, hr, ?_, ?_⟩
  · rw [hr, hs]; simp only [List.length_append, List.length_cons]; omega
  · intro hnd t ht
    rw [hr] at ht
    have hlate := names_after_split pre post s (hs ▸ hnd)
    rcases List.mem_append.1 ht with ht | ht
    · exact hpre t ht
    · rw [← hsn]; exact hlate t ht

/-- Witness for C20: the registry [X, Z] with X holding DishA and 1 Flour. -/
theorem mergeStations_self_removes_witness :
    (∃ s ∈ (registry [stocked "X", bare "Z"]).stations, s.name = "X") ∧
    (registry [stocked "X", bare "Z"]).mergeStations "X" "X" = (true, registry [bare "Z"]) ∧
    ∃ pre s post, FirstStation (registry [stocked "X", bare "Z"]).stations pre s post "X" ∧
      (registry [stocked "X", bare "Z"]).mergeStations "X" "X"
        = (true, { registry [stocked "X", bare "Z"] with stations := pre ++ post }) := by
  refine ⟨⟨stocked "X", by decide, rfl⟩, by decide, ?_⟩
  obtain ⟨pre, s, post, h1, h2, _⟩ :=
    mergeStations_self_removes (registry [stocked "X", bare "Z"]) "X"
      ⟨stocked "X", by decide, rfl⟩
  exact ⟨pre, s, post, h1, h2⟩

/-! ## Full quantity, not the shortfall -/

/-- C21: prepareNextDish replenishes the full required quantity of each ingredient, not
the shortfall.  Queue [DishA, DishB], DishA needing 2 Flour, the only station Grill
knowing DishA and holding 1 Flour, pool holding 1 Flour: stock and pool together cover
the 2 Flour, and a transfer of the missing 1 Flour would let Grill prepare the dish, but
the call asks the pool for 2 Flour, which fails, so prepareNextDish returns false and
leaves the state as it was, DishA at the head of the queue.  With 2 Flour in the pool
the same call takes both units: the retry is made with Grill holding 3 Flour and the
pool is left empty. -/
theorem prepareNextDish_replenishes_full_quantity :
    ((scenario [flour 1] 1).stations = [grill [flour 1]] ∧
      (grill [flour 1]).canPrepare dishA = true ∧
      dishA.ingredients = [flour 2] ∧
      stockQuantity (grill [flour 1]).ingredients_stock "Flour"
        + stockQuantity (scenario [flour 1] 1).backup_ingredients_ "Flour" = 2 ∧
      ((grill [flour 1]).prepareDish dishA.name).1 = false ∧
      (scenario [flour 1] 1).replenishStationIngredientFromBackup "Grill" "Flour" 2
        = (false, scenario [flour 1] 1) ∧
      ((scenario [flour 1] 1).replenishAll "Grill" dishA.ingredients).1 = false ∧
      (scenario [flour 1] 1).prepareNextDish.1 = false ∧
      (scenario [flour 1] 1).prepareNextDish.2.dish_queue_ = [dishA, dishB] ∧
      (scenario [flour 1] 1).prepareNextDish.2.dish_queue_.head? = some dishA ∧
      (scenario [flour 1] 1).prepareNextDish.2 = scenario [flour 1] 1) ∧
    (((scenario [flour 1] 1).replenishStationIngredientFromBackup "Grill" "Flour" 1).1
        = true ∧
      ((scenario [flour 1] 1).replenishStationIngredientFromBackup "Grill" "Flour" 1).2.stations
        = [grill [flour 2]] ∧
      ((grill [flour 2]).prepareDish dishA.name).1 = true) ∧
    (((scenario [flour 1] 2).replenishAll "Grill" dishA.ingredients).1 = true ∧
      ((scenario [flour 1] 2).replenishAll "Grill" dishA.ingredients).2.stations
        = [grill [flour 3]] ∧
      ((scenario [flour 1] 2).replenishAll "Grill" dishA.ingredients).2.backup_ingredients_
        = [] ∧
      (scenario [flour 1] 2).prepareNextDish.1 = true ∧
      (scenario [flour 1] 2).prepareNextDish.2.dish_queue_ = [dishB] ∧
      (scenario [flour 1] 2).prepareNextDish.2.backup_ingredients_ = []) := by
  decide

end Kitchen
